import Mathlib

/-!
Verification of the attribute-search-engine library.

This file contains a shallow embedding of the library's core, translated
from the Rust sources:

* `src/error.rs`      → `SearchEngineError`
* `src/query.rs`      → `Query`, `SupportedQueries`, `SUPPORTS_*`
* `src/index/mod.rs`  → `SearchIndexIface` (the object-safe trait surface),
  `string_to_payload_type`
* `src/index/hashmap.rs`     → `SearchIndexHashMap`
* `src/index/btree_range.rs` → `SearchIndexBTreeRange`
* `src/index/prefix/tree.rs` → `TreeNode`, `HashSetPrefixTree`
* `src/index/prefix/mod.rs`  → `SearchIndexPrefixTree`
* `src/query_lexer.rs`       → `QueryToken`, `skip_whitespace`, `read_freetext`,
  `read_attribute_index`, `read_attribute_values`, `read_attribute`,
  `next_token`, `tokens`
* `src/engine.rs`            → `SearchEngine`, `SearchEngine.search`,
  `SearchEngine.query_from_str`

Rust `HashSet<P>` is modelled as `Finset P`, maps as association lists,
strings as `String` / `List Char` (the lexer works on `char_indices`, so
positions are character positions), and fallible calls return
`Except SearchEngineError`.
-/

namespace ASE

/-- Error enum of the library, from src/error.rs. -/
inductive SearchEngineError where
  | UnknownAttribute
  | MismatchedQueryType
  | UnsupportedQuery
deriving DecidableEq, Repr

/-- Result type alias of src/error.rs: `Result<T> = Result<T, SearchEngineError>`. -/
abbrev SResult (T : Type) := Except SearchEngineError T

/-- Recursive query tree from src/query.rs. The Rust `Prefix` constructor is
called `PrefixQ` here; everything else keeps its source name. -/
inductive Query where
  | Exact (attr s : String)
  | PrefixQ (attr s : String)
  | InRange (attr lo hi : String)
  | OutRange (attr lo hi : String)
  | Minimum (attr s : String)
  | Maximum (attr s : String)
  | Or (qs : List Query)
  | And (qs : List Query)
  | Exclude (base : Query) (subs : List Query)

/-- Bitmask type for queries supported by an index (`SupportedQueries = u8`). -/
abbrev SupportedQueries := Nat

/-- Capability bit for Exact queries (`1 << 0`). -/
def SUPPORTS_EXACT : SupportedQueries := 1 <<< 0

/-- Capability bit for Prefix queries (`1 << 1`, source name `SUPPORTS_PREFIX`). -/
def SUPPORTS_PREFIXQ : SupportedQueries := 1 <<< 1

/-- Capability bit for InRange queries (`1 << 2`). -/
def SUPPORTS_INRANGE : SupportedQueries := 1 <<< 2

/-- Capability bit for OutRange queries (`1 << 3`). -/
def SUPPORTS_OUTRANGE : SupportedQueries := 1 <<< 3

/-- Capability bit for Minimum queries (`1 << 4`). -/
def SUPPORTS_MINIMUM : SupportedQueries := 1 <<< 4

/-- Capability bit for Maximum queries (`1 << 5`). -/
def SUPPORTS_MAXIMUM : SupportedQueries := 1 <<< 5

/-- Model of Rust's `FromStr` bound used by the value types of the indices. -/
class FromStr (V : Type) where
  fromStr : String → Option V

/-- Translation of `string_to_payload_type` from src/index/mod.rs: parse a
string into a payload value, failing with MismatchedQueryType. -/
def string_to_payload_type (V : Type) [FromStr V] (value : String) : SResult V :=
  match FromStr.fromStr (V := V) value with
  | some v => .ok v
  | none => .error .MismatchedQueryType

/-- Association list lookup modelling `HashMap::get` / `BTreeMap::get` on a
map whose entries are `(key, posting)` pairs. -/
def lookupKey {P V : Type} [DecidableEq V] (l : List (V × Finset P)) (v : V) :
    Option (Finset P) :=
  (l.find? (fun kv => decide (kv.1 = v))).map (fun kv => kv.2)

/-- SearchIndexHashMap from src/index/hashmap.rs: a HashMap from values to
postings, modelled as an association list. -/
structure SearchIndexHashMap (P V : Type) where
  index : List (V × Finset P)

/-- Translation of `SearchIndexHashMap::search`: only Exact queries are
answered; the value string is parsed and the posting looked up. -/
def SearchIndexHashMap.search {P V : Type} [DecidableEq V] [FromStr V]
    (t : SearchIndexHashMap P V) : Query → SResult (Finset P)
  | .Exact _ value_str =>
    match string_to_payload_type V value_str with
    | .error e => .error e
    | .ok value => .ok ((lookupKey t.index value).getD ∅)
  | _ => .error .UnsupportedQuery

/-- Modelled from the spec: the `supported_queries` implementation of the
hash index is not present under src/ (the trait declares it in
src/index/mod.rs, but the impl block in src/index/hashmap.rs does not carry
it); the spec declares `supported_queries(): {Exact}` for the hash index. -/
def SearchIndexHashMap.supported_queries {P V : Type}
    (_t : SearchIndexHashMap P V) : SupportedQueries :=
  SUPPORTS_EXACT

/-- SearchIndexBTreeRange from src/index/btree_range.rs: a BTreeMap from
values to postings, modelled as an association list. -/
structure SearchIndexBTreeRange (P V : Type) where
  index : List (V × Finset P)

/-- Translation of the internal `search_range` helper: union of the postings
of all entries whose key lies in the given range (the range is modelled as a
decidable predicate on keys). -/
def SearchIndexBTreeRange.search_range {P V : Type} [DecidableEq P]
    (t : SearchIndexBTreeRange P V) (mem : V → Bool) : Finset P :=
  t.index.foldl (fun acc kv => if mem kv.1 then acc ∪ kv.2 else acc) ∅

/-- Translation of `SearchIndexBTreeRange::search`. -/
def SearchIndexBTreeRange.search {P V : Type} [DecidableEq P] [DecidableEq V]
    [LinearOrder V] [FromStr V]
    (t : SearchIndexBTreeRange P V) : Query → SResult (Finset P)
  | .Exact _ value_str =>
    match string_to_payload_type V value_str with
    | .error e => .error e
    | .ok value => .ok ((lookupKey t.index value).getD ∅)
  | .InRange _ min_str max_str =>
    match string_to_payload_type V min_str with
    | .error e => .error e
    | .ok mn =>
      match string_to_payload_type V max_str with
      | .error e => .error e
      | .ok mx =>
        if mn > mx then .ok ∅
        else .ok (t.search_range (fun k => decide (mn ≤ k) && decide (k ≤ mx)))
  | .Minimum _ min_str =>
    match string_to_payload_type V min_str with
    | .error e => .error e
    | .ok mn => .ok (t.search_range (fun k => decide (mn ≤ k)))
  | .Maximum _ max_str =>
    match string_to_payload_type V max_str with
    | .error e => .error e
    | .ok mx => .ok (t.search_range (fun k => decide (k ≤ mx)))
  | .OutRange _ start_str end_str =>
    match string_to_payload_type V start_str with
    | .error e => .error e
    | .ok vstart =>
      match string_to_payload_type V end_str with
      | .error e => .error e
      | .ok vend =>
        if vstart > vend then .ok ∅
        else .ok (t.search_range (fun k => decide (k < vstart)) ∪
                  t.search_range (fun k => decide (vend < k)))
  | _ => .error .UnsupportedQuery

/-- Translation of `SearchIndexBTreeRange::supported_queries` from
src/index/btree_range.rs lines 143-145. -/
def SearchIndexBTreeRange.supported_queries {P V : Type}
    (_t : SearchIndexBTreeRange P V) : SupportedQueries :=
  SUPPORTS_EXACT ||| SUPPORTS_INRANGE ||| SUPPORTS_MINIMUM ||| SUPPORTS_MAXIMUM |||
    SUPPORTS_OUTRANGE

/-! Prefix tree, from src/index/prefix/tree.rs. The arena `nodes` and the
posting arena `values` are lists indexed by position; node 0 is the root. -/

/-- A single node in the prefix tree (`TreeNode`): an optional index into
the value arena and the (sorted) child edges. -/
structure TreeNode where
  value : Option Nat
  children : List (Char × Nat)
deriving Repr

/-- Translation of `TreeNode::new`. -/
def TreeNode.new (value : Option Nat) : TreeNode := ⟨value, []⟩

/-- Core of Rust's `slice::binary_search_by` on the children list, compiled
from the standard two-pointer loop: invariant `lo ≤ hi ≤ length`. -/
def TreeNode.binary_search_go (children : List (Char × Nat)) (key : Char)
    (lo hi : Nat) : Option Nat :=
  if h : lo < hi then
    let mid := (lo + hi) / 2
    match compare (children.getD mid (' ', 0)).1 key with
    | .lt => binary_search_go children key (mid + 1) hi
    | .gt => binary_search_go children key lo mid
    | .eq => some mid
  else none
termination_by hi - lo
decreasing_by
· omega
· omega

/-- Translation of `TreeNode::find_child`: binary search the sorted edge
list for the key and return the child node index on a hit. -/
def TreeNode.find_child (n : TreeNode) (key : Char) : Option Nat :=
  (TreeNode.binary_search_go n.children key 0 n.children.length).map
    (fun idx => (n.children.getD idx (' ', 0)).2)

/-- Translation of `TreeNode::insert_child`: push the new edge and re-sort
the edge list by character (Rust `sort_by` is a stable merge sort). -/
def TreeNode.insert_child (n : TreeNode) (key : Char) (child_id : Nat) : TreeNode :=
  let sorted := (n.children ++ [(key, child_id)]).mergeSort (fun a b => decide (a.1 ≤ b.1))
  { n with children := sorted }

/-- Translation of `TreeNode::set`. -/
def TreeNode.set (n : TreeNode) (value : Nat) : TreeNode :=
  { n with value := some value }

/-- Translation of `TreeNode::get`. -/
def TreeNode.get (n : TreeNode) : Option Nat := n.value

/-- The prefix tree object (`HashSetPrefixTree`): a node arena and a posting
arena. -/
structure HashSetPrefixTree (P : Type) where
  nodes : List TreeNode
  values : List (Finset P)

/-- Translation of `HashSetPrefixTree::new`: a lone root node, no postings. -/
def HashSetPrefixTree.new (P : Type) : HashSetPrefixTree P :=
  ⟨[TreeNode.new none], []⟩

/-- Translation of `HashSetPrefixTree::create_new_node`: push a fresh node
and return its arena index (`nodes.len() - 1` after the push). -/
def HashSetPrefixTree.create_new_node {P : Type} (t : HashSetPrefixTree P) :
    HashSetPrefixTree P × Nat :=
  (⟨t.nodes ++ [TreeNode.new none], t.values⟩, (t.nodes ++ [TreeNode.new none]).length - 1)

/-- The character walk of `HashSetPrefixTree::insert`: follow existing
edges, creating a node and an edge where a character has no child yet;
returns the updated tree and the terminal node id. -/
def HashSetPrefixTree.insertWalk {P : Type} (t : HashSetPrefixTree P) (node_id : Nat) :
    List Char → HashSetPrefixTree P × Nat
  | [] => (t, node_id)
  | c :: rest =>
    match (t.nodes.getD node_id (TreeNode.new none)).find_child c with
    | some id => t.insertWalk id rest
    | none =>
      match t.create_new_node with
      | (t2, new_node_id) =>
        let t3 : HashSetPrefixTree P :=
          ⟨t2.nodes.set node_id
              ((t2.nodes.getD node_id (TreeNode.new none)).insert_child c new_node_id),
            t2.values⟩
        t3.insertWalk new_node_id rest

/-- Translation of `HashSetPrefixTree::insert`: walk the key, then insert
the value into the terminal node's posting, creating the posting when the
node has no value slot yet, and store the slot index in the node. -/
def HashSetPrefixTree.insert {P : Type} [DecidableEq P] (t : HashSetPrefixTree P)
    (key : String) (value : P) : HashSetPrefixTree P :=
  match t.insertWalk 0 key.data with
  | (t1, node_id) =>
    match (t1.nodes.getD node_id (TreeNode.new none)).get with
    | some id =>
      ⟨t1.nodes.set node_id ((t1.nodes.getD node_id (TreeNode.new none)).set id),
        t1.values.set id (Insert.insert value (t1.values.getD id ∅))⟩
    | none =>
      let value_id := t1.values.length
      ⟨t1.nodes.set node_id ((t1.nodes.getD node_id (TreeNode.new none)).set value_id),
        t1.values ++ [{value}]⟩

/-- The walk of `HashSetPrefixTree::find_node`: follow one edge per
character. -/
def HashSetPrefixTree.find_node_go {P : Type} (t : HashSetPrefixTree P) :
    Nat → List Char → Option Nat
  | node_id, [] => some node_id
  | node_id, c :: rest =>
    match (t.nodes.getD node_id (TreeNode.new none)).find_child c with
    | none => none
    | some id => t.find_node_go id rest

/-- Translation of `HashSetPrefixTree::find_node`. -/
def HashSetPrefixTree.find_node {P : Type} (t : HashSetPrefixTree P) (key : String) :
    Option Nat :=
  if t.nodes.isEmpty then none else t.find_node_go 0 key.data

/-- Translation of `HashSetPrefixTree::get`: the posting at the exact
terminal node, if both the node and its value slot exist. -/
def HashSetPrefixTree.get {P : Type} (t : HashSetPrefixTree P) (key : String) :
    Option (Finset P) :=
  match t.find_node key with
  | none => none
  | some node_id =>
    match (t.nodes.getD node_id (TreeNode.new none)).get with
    | none => none
    | some value_id => some (t.values.getD value_id ∅)

/-- The breadth-first queue loop of `HashSetPrefixTree::get_prefix`,
fuel-driven: pop a node, union its posting into the accumulator, push its
children. The source loop ends when the queue empties; every constructible
arena is a forest whose edges point to strictly larger indices, so each node
is popped at most once and `nodes.length` fuel is never exhausted (proved
below for trees built by `insert`). -/
def HashSetPrefixTree.get_prefix_go {P : Type} [DecidableEq P] (t : HashSetPrefixTree P) :
    Nat → List Nat → Finset P → Finset P
  | 0, _, acc => acc
  | _ + 1, [], acc => acc
  | fuel + 1, node_id :: node_ids, acc =>
    let node := t.nodes.getD node_id (TreeNode.new none)
    let acc2 :=
      match node.get with
      | some value_id => acc ∪ t.values.getD value_id ∅
      | none => acc
    t.get_prefix_go fuel (node_ids ++ node.children.map (fun x => x.2)) acc2

/-- Translation of `HashSetPrefixTree::get_prefix` (source name
`get_prefix`): find the node reached by the prefix and union the postings
of its whole subtree. -/
def HashSetPrefixTree.get_prefix_set {P : Type} [DecidableEq P]
    (t : HashSetPrefixTree P) (pre : String) : Option (Finset P) :=
  match t.find_node pre with
  | none => none
  | some node_id => some (t.get_prefix_go t.nodes.length [node_id] ∅)

/-- SearchIndexPrefixTree from src/index/prefix/mod.rs, wrapping the tree. -/
structure SearchIndexPrefixTree (P : Type) where
  index : HashSetPrefixTree P

/-- Translation of `SearchIndexPrefixTree::search`: Exact uses `get`,
Prefix uses `get_prefix`, both with `unwrap_or_default`. -/
def SearchIndexPrefixTree.search {P : Type} [DecidableEq P]
    (t : SearchIndexPrefixTree P) : Query → SResult (Finset P)
  | .Exact _ value => .ok ((t.index.get value).getD ∅)
  | .PrefixQ _ value => .ok ((t.index.get_prefix_set value).getD ∅)
  | _ => .error .UnsupportedQuery

/-- Modelled from the spec: the `supported_queries` implementation of the
prefix-tree index is not present under src/ (the trait declares it in
src/index/mod.rs, but the impl block in src/index/prefix/mod.rs does not
carry it); the spec declares `supported_queries(): {Exact, Prefix}` for the
prefix-tree index. -/
def SearchIndexPrefixTree.supported_queries {P : Type}
    (_t : SearchIndexPrefixTree P) : SupportedQueries :=
  SUPPORTS_EXACT ||| SUPPORTS_PREFIXQ

/-- Object-safe surface of the `SearchIndex` trait (src/index/mod.rs), the
shape the engine stores behind `Box<dyn SearchIndex<P>>`. -/
structure SearchIndexIface (P : Type) where
  search : Query → SResult (Finset P)
  supported_queries : SupportedQueries

/-- Box a hash index behind the trait surface. -/
def SearchIndexHashMap.toIface {P V : Type} [DecidableEq V] [FromStr V]
    (t : SearchIndexHashMap P V) : SearchIndexIface P :=
  ⟨t.search, t.supported_queries⟩

/-- Box a btree index behind the trait surface. -/
def SearchIndexBTreeRange.toIface {P V : Type} [DecidableEq P] [DecidableEq V]
    [LinearOrder V] [FromStr V]
    (t : SearchIndexBTreeRange P V) : SearchIndexIface P :=
  ⟨t.search, t.supported_queries⟩

/-- Box a prefix-tree index behind the trait surface. -/
def SearchIndexPrefixTree.toIface {P : Type} [DecidableEq P]
    (t : SearchIndexPrefixTree P) : SearchIndexIface P :=
  ⟨t.search, t.supported_queries⟩

/-- SearchEngine from src/engine.rs: a HashMap from attribute names to boxed
indices, modelled as a lookup function. -/
structure SearchEngine (P : Type) where
  indices : String → Option (SearchIndexIface P)

mutual

/-- Translation of `SearchEngine::search` (src/engine.rs lines 63-112).
Leaves are dispatched to the index registered under their attribute name;
`Or`, `And` and `Exclude` run the accumulator loops below. -/
def SearchEngine.search {P : Type} [DecidableEq P] (e : SearchEngine P) :
    Query → SResult (Finset P)
  | q@(.Exact attr _) | q@(.PrefixQ attr _) | q@(.InRange attr _ _)
  | q@(.OutRange attr _ _) | q@(.Minimum attr _) | q@(.Maximum attr _) =>
    match e.indices attr with
    | none => .error .UnknownAttribute
    | some idx => idx.search q
  | .Or qs => e.searchOrList qs ∅
  | .And qs => e.searchAndFirst qs
  | .Exclude base subs =>
    match e.search base with
    | .error er => .error er
    | .ok s => e.searchExcludeRest subs s

/-- The `Or` loop of `SearchEngine::search`: union every child result into
the accumulator (which starts empty). -/
def SearchEngine.searchOrList {P : Type} [DecidableEq P] (e : SearchEngine P) :
    List Query → Finset P → SResult (Finset P)
  | [], acc => .ok acc
  | q :: rest, acc =>
    match e.search q with
    | .error er => .error er
    | .ok s => e.searchOrList rest (acc ∪ s)

/-- The `And` loop of `SearchEngine::search`: in the source the iteration
with `i == 0` seeds the accumulator with the first child's result and the
empty check runs after every iteration; this is that first iteration. -/
def SearchEngine.searchAndFirst {P : Type} [DecidableEq P] (e : SearchEngine P) :
    List Query → SResult (Finset P)
  | [] => .ok ∅
  | q :: rest =>
    match e.search q with
    | .error er => .error er
    | .ok s => if s = ∅ then .ok s else e.searchAndRest rest s

/-- The `And` loop for iterations with `i > 0`: intersect each child result
into the accumulator and short-circuit as soon as it becomes empty. -/
def SearchEngine.searchAndRest {P : Type} [DecidableEq P] (e : SearchEngine P) :
    List Query → Finset P → SResult (Finset P)
  | [], acc => .ok acc
  | q :: rest, acc =>
    match e.search q with
    | .error er => .error er
    | .ok s =>
      let acc2 := acc ∩ s
      if acc2 = ∅ then .ok acc2 else e.searchAndRest rest acc2

/-- The `Exclude` loop of `SearchEngine::search`: subtract each subtractor
result from the accumulator and short-circuit as soon as it becomes empty. -/
def SearchEngine.searchExcludeRest {P : Type} [DecidableEq P] (e : SearchEngine P) :
    List Query → Finset P → SResult (Finset P)
  | [], acc => .ok acc
  | q :: rest, acc =>
    match e.search q with
    | .error er => .error er
    | .ok s =>
      let acc2 := acc \ s
      if acc2 = ∅ then .ok acc2 else e.searchExcludeRest rest acc2

end

/-! Query lexer, from src/query_lexer.rs. The Rust lexer walks a peekable
`CharIndices` iterator and cuts byte-indexed slices out of the input; here
the input is its character list `cs`, the iterator state is the remaining
list of (position, character) pairs, and slices are cut by character
position. -/

/-- Token type of the query lexer (`QueryToken` in src/query_lexer.rs); the
string slices of the source are character-list slices of the input. -/
inductive QueryToken where
  | Attribute (is_include : Bool) (name : List Char) (values : List (List Char))
  | Freetext (text : List Char)
deriving DecidableEq, Repr

/-- Slice cs[a..b] of the input by character position. -/
def slice (cs : List Char) (a b : Nat) : List Char := (cs.take b).drop a

/-- Rust's `char::is_whitespace`: the Unicode White_Space property, which is
exactly the code points U+0009..U+000D, U+0020, U+0085, U+00A0, U+1680,
U+2000..U+200A, U+2028, U+2029, U+202F, U+205F and U+3000. -/
def rustIsWhitespace (c : Char) : Bool :=
  let n := c.toNat
  (0x09 ≤ n && n ≤ 0x0D) || n = 0x20 || n = 0x85 || n = 0xA0 || n = 0x1680 ||
  (0x2000 ≤ n && n ≤ 0x200A) || n = 0x2028 || n = 0x2029 || n = 0x202F ||
  n = 0x205F || n = 0x3000

/-- The lexer classifies identifier characters with Rust's
`char::is_alphanumeric` (Unicode Alphabetic plus the Nd/Nl/No number
categories). That classifier enters the code only through its Boolean
answers, so the translation takes it as a parameter `isAlnum` and the
theorems hold for every classifier enjoying the two properties used, both
true of the Unicode data: no alphanumeric code point is White_Space, and
`:` is not alphanumeric. The ASCII restriction below instantiates the
parameter in witnesses. -/
def asciiAlnum (c : Char) : Bool :=
  let n := c.toNat
  (0x30 ≤ n && n ≤ 0x39) || (0x41 ≤ n && n ≤ 0x5A) || (0x61 ≤ n && n ≤ 0x7A)

/-- Translation of `QueryLexer::skip_whitespace`: drop leading whitespace
from the iterator. -/
def skip_whitespace : List (Nat × Char) → List (Nat × Char)
  | [] => []
  | (i, c) :: rest => if rustIsWhitespace c then skip_whitespace rest else (i, c) :: rest

/-- Translation of `QueryLexer::read_freetext`: consume until the first
whitespace character (excluded) or the end of the input and return the slice
from `start_idx` as a Freetext token, together with the iterator rest. -/
def read_freetext (cs : List Char) (start_idx : Nat) :
    List (Nat × Char) → QueryToken × List (Nat × Char)
  | [] => (.Freetext (slice cs start_idx cs.length), [])
  | (idx, c) :: rest =>
    if rustIsWhitespace c then (.Freetext (slice cs start_idx idx), (idx, c) :: rest)
    else read_freetext cs start_idx rest

/-- Translation of `QueryLexer::read_attribute_index`: consume the attribute
name, stopping (without consuming) at a colon or any non-alphanumeric
character; the flag records whether the stop was a colon. At the end of the
input the source returns `("", false)`. -/
def read_attribute_index (cs : List Char) (isAlnum : Char → Bool) (start_idx : Nat) :
    List (Nat × Char) → (List Char × Bool) × List (Nat × Char)
  | [] => (([], false), [])
  | (idx, c) :: rest =>
    if c = ':' || !isAlnum c then ((slice cs start_idx idx, c = ':'), (idx, c) :: rest)
    else read_attribute_index cs isAlnum start_idx rest

/-- Translation of `QueryLexer::read_attribute_values`: read the
comma-separated value list, dropping empty values, stopping (without
consuming) at whitespace. -/
def read_attribute_values (cs : List Char) :
    Nat → List (List Char) → List (Nat × Char) → List (List Char) × List (Nat × Char)
  | value_start_idx, values, [] =>
    let last_value := slice cs value_start_idx cs.length
    (if last_value ≠ [] then values ++ [last_value] else values, [])
  | value_start_idx, values, (idx, c) :: rest =>
    if c = ',' || rustIsWhitespace c then
      let values2 :=
        if value_start_idx < idx then values ++ [slice cs value_start_idx idx] else values
      if rustIsWhitespace c then (values2, (idx, c) :: rest)
      else read_attribute_values cs (idx + 1) values2 rest
    else read_attribute_values cs value_start_idx values rest

/-- Translation of `QueryLexer::read_attribute`: consume the sign, read the
attribute name; on a malformed head fall back to reading the whole token
from the sign as Freetext, otherwise consume the colon and read the value
list. The two impossible branches (empty iterator although the caller
peeked, and a missing colon although `attribute_ok` holds, which the source
guards with `expect`/`assert`) return a dummy Freetext token. -/
def read_attribute (cs : List Char) (isAlnum : Char → Bool) :
    List (Nat × Char) → QueryToken × List (Nat × Char)
  | [] => (.Freetext [], [])
  | (start_idx, first_char) :: rest0 =>
    match read_attribute_index cs isAlnum (start_idx + 1) rest0 with
    | ((attribute_index, attribute_ok), it1) =>
      if !attribute_ok || attribute_index.isEmpty then read_freetext cs start_idx it1
      else
        match it1 with
        | [] => (.Freetext [], [])
        | (colon_idx, _) :: it2 =>
          match read_attribute_values cs (colon_idx + 1) [] it2 with
          | (attribute_values, it3) =>
            (.Attribute (first_char = '+') attribute_index attribute_values, it3)

/-- Translation of `QueryLexer::next_token`: skip whitespace, then read an
attribute token if the head is a sign and a freetext token otherwise. -/
def next_token (cs : List Char) (isAlnum : Char → Bool) (it : List (Nat × Char)) :
    Option (QueryToken × List (Nat × Char)) :=
  match skip_whitespace it with
  | [] => none
  | (start_idx, first_char) :: rest =>
    if first_char = '+' || first_char = '-' then
      some (read_attribute cs isAlnum ((start_idx, first_char) :: rest))
    else
      some (read_freetext cs start_idx ((start_idx, first_char) :: rest))

theorem skip_whitespace_length (it : List (Nat × Char)) :
    (skip_whitespace it).length ≤ it.length := by
  induction it with
  | nil => simp [skip_whitespace]
  | cons hd rest ih =>
    obtain ⟨i, c⟩ := hd
    simp only [skip_whitespace]
    split
    · exact Nat.le_succ_of_le ih
    · exact Nat.le_refl _

theorem read_freetext_length (cs : List Char) (s : Nat) (it : List (Nat × Char)) :
    (read_freetext cs s it).2.length ≤ it.length := by
  induction it generalizing s with
  | nil => simp [read_freetext]
  | cons hd rest ih =>
    obtain ⟨i, c⟩ := hd
    simp only [read_freetext]
    split
    · simp
    · exact Nat.le_succ_of_le (ih s)

theorem read_attribute_index_length (cs : List Char) (isAlnum : Char → Bool) (s : Nat)
    (it : List (Nat × Char)) :
    (read_attribute_index cs isAlnum s it).2.length ≤ it.length := by
  induction it generalizing s with
  | nil => simp [read_attribute_index]
  | cons hd rest ih =>
    obtain ⟨i, c⟩ := hd
    simp only [read_attribute_index]
    split
    · simp
    · exact Nat.le_succ_of_le (ih s)

theorem read_attribute_values_length (cs : List Char) (s : Nat) (vs : List (List Char))
    (it : List (Nat × Char)) :
    (read_attribute_values cs s vs it).2.length ≤ it.length := by
  induction it generalizing s vs with
  | nil => simp [read_attribute_values]
  | cons hd rest ih =>
    obtain ⟨i, c⟩ := hd
    simp only [read_attribute_values]
    split
    · split
      · simp
      · exact Nat.le_succ_of_le (ih _ _)
    · exact Nat.le_succ_of_le (ih _ _)

theorem read_attribute_cons_length (cs : List Char) (isAlnum : Char → Bool) (i : Nat)
    (c : Char) (rest0 : List (Nat × Char)) :
    (read_attribute cs isAlnum ((i, c) :: rest0)).2.length ≤ rest0.length := by
  simp only [read_attribute]
  have h1 := read_attribute_index_length cs isAlnum (i + 1) rest0
  split
  · calc (read_freetext cs i (read_attribute_index cs isAlnum (i + 1) rest0).2).2.length
        ≤ (read_attribute_index cs isAlnum (i + 1) rest0).2.length :=
          read_freetext_length _ _ _
      _ ≤ rest0.length := h1
  · match h2 : (read_attribute_index cs isAlnum (i + 1) rest0).2 with
    | [] => simp
    | (colon_idx, c2) :: it2 =>
      simp only
      have h3 := read_attribute_values_length cs (colon_idx + 1) [] it2
      have h4 : it2.length < rest0.length := by
        rw [h2] at h1
        simp only [List.length_cons] at h1
        omega
      omega

theorem skip_whitespace_head_not_ws (it : List (Nat × Char)) (i : Nat) (c : Char)
    (rest : List (Nat × Char)) (h : skip_whitespace it = (i, c) :: rest) :
    rustIsWhitespace c = false := by
  induction it with
  | nil => simp [skip_whitespace] at h
  | cons hd tl ih =>
    obtain ⟨j, d⟩ := hd
    simp only [skip_whitespace] at h
    split at h
    · exact ih h
    · rename_i hd
      obtain ⟨⟨rfl, rfl⟩, rfl⟩ := by simpa using h
      simpa using hd

theorem read_freetext_cons_length (cs : List Char) (s i : Nat) (c : Char)
    (rest : List (Nat × Char)) (h : rustIsWhitespace c = false) :
    (read_freetext cs s ((i, c) :: rest)).2.length ≤ rest.length := by
  simp only [read_freetext, h]
  simp only [Bool.false_eq_true, if_false]
  exact read_freetext_length cs s rest

theorem next_token_length (cs : List Char) (isAlnum : Char → Bool)
    (it : List (Nat × Char)) (tok : QueryToken) (it' : List (Nat × Char))
    (h : next_token cs isAlnum it = some (tok, it')) :
    it'.length < it.length := by
  match hs : skip_whitespace it with
  | [] =>
    simp only [next_token, hs] at h
    exact Option.noConfusion h
  | (start_idx, first_char) :: rest =>
    simp only [next_token, hs] at h
    have hlen : rest.length < it.length := by
      have := skip_whitespace_length it
      rw [hs] at this
      simp only [List.length_cons] at this
      omega
    split at h
    · have h2 := congrArg Prod.snd (Option.some.inj h)
      simp only at h2
      have := read_attribute_cons_length cs isAlnum start_idx first_char rest
      rw [h2] at this
      omega
    · have hnw := skip_whitespace_head_not_ws it start_idx first_char rest hs
      have h2 := congrArg Prod.snd (Option.some.inj h)
      simp only at h2
      have := read_freetext_cons_length cs start_idx start_idx first_char rest hnw
      rw [h2] at this
      omega

/-- Fuel-driven token collection loop: run `next_token` until it returns
none. The Rust caller simply runs the iterator dry; every produced token
consumes at least one character (`next_token_length`), so any fuel above the
iterator length computes the full token stream (`tokensFuel_congr`). -/
def tokensFuel (cs : List Char) (isAlnum : Char → Bool) :
    Nat → List (Nat × Char) → List QueryToken
  | 0, _ => []
  | fuel + 1, it =>
    match next_token cs isAlnum it with
    | none => []
    | some (tok, it2) => tok :: tokensFuel cs isAlnum fuel it2

/-- Collected token stream of the lexer on iterator state `it`. -/
def tokens (cs : List Char) (isAlnum : Char → Bool) (it : List (Nat × Char)) :
    List QueryToken :=
  tokensFuel cs isAlnum (it.length + 1) it

/-- Fuel above the iterator length never runs out, so the fuel-driven loop
agrees with the source loop that runs the iterator to exhaustion. -/
theorem tokensFuel_congr (cs : List Char) (isAlnum : Char → Bool) (f1 f2 : Nat)
    (it : List (Nat × Char)) (h1 : it.length < f1) (h2 : it.length < f2) :
    tokensFuel cs isAlnum f1 it = tokensFuel cs isAlnum f2 it := by
  induction f1 using Nat.strong_induction_on generalizing f2 it with
  | _ f1 ih =>
    match f1, f2 with
    | fa + 1, fb + 1 =>
      simp only [tokensFuel]
      match hn : next_token cs isAlnum it with
      | none => simp
      | some (tok, it2) =>
        simp only
        have hlt := next_token_length cs isAlnum it tok it2 hn
        rw [ih fa (Nat.lt_succ_self _) fb it2 (by omega) (by omega)]

/-! Query compiler, from `SearchEngine::query_from_str` in src/engine.rs. -/

/-- Translation of the per-value closure inside `query_from_str`
(src/engine.rs lines 197-225): map one value string of an attribute token to
a leaf query, consulting the capability bitmask of the index. -/
def query_from_value (supported : SupportedQueries) (attr : String) (v : List Char) :
    Query :=
  if (supported &&& SUPPORTS_MINIMUM) ≠ 0 && startsWithChar v '>' then
    .Minimum attr (String.mk (v.drop 1))
  else if (supported &&& SUPPORTS_MAXIMUM) ≠ 0 && startsWithChar v '<' then
    .Maximum attr (String.mk (v.drop 1))
  else if (supported &&& SUPPORTS_EXACT) ≠ 0 && startsWithChar v '=' then
    .Exact attr (String.mk (v.drop 1))
  else
    let inrange : Option Query :=
      if (supported &&& SUPPORTS_INRANGE) ≠ 0 && v.contains '-' then
        let parts := v.splitOn '-'
        if parts.length = 2 then
          some (.InRange attr (String.mk (parts.getD 0 [])) (String.mk (parts.getD 1 [])))
        else none
      else none
    match inrange with
    | some q => q
    | none =>
      if (supported &&& SUPPORTS_PREFIXQ) ≠ 0 then .PrefixQ attr (String.mk v)
      else .Exact attr (String.mk v)
where
  /-- Rust `str::starts_with(char)` on a character-list slice. -/
  startsWithChar (v : List Char) (c : Char) : Bool :=
    match v with
    | [] => false
    | d :: _ => d = c

/-- The token-stream loop of `query_from_str` (src/engine.rs lines 186-242):
build the include and exclude lists and collect freetext. -/
def SearchEngine.qfs_loop {P : Type} (e : SearchEngine P) :
    List QueryToken → List Query → List Query → List (List Char) →
    SResult (Query × List (List Char))
  | [], includeQ, excludeQ, freetexts =>
    let base_query := Query.And includeQ
    if excludeQ.isEmpty then .ok (base_query, freetexts)
    else .ok (.Exclude base_query excludeQ, freetexts)
  | .Freetext text :: rest, includeQ, excludeQ, freetexts =>
    e.qfs_loop rest includeQ excludeQ (freetexts ++ [text])
  | .Attribute is_include attrName values :: rest, includeQ, excludeQ, freetexts =>
    match e.indices (String.mk attrName) with
    | none => .error .UnknownAttribute
    | some index =>
      let supported := index.supported_queries
      let qs : List Query := values.map (query_from_value supported (String.mk attrName))
      match qs with
      | [] => e.qfs_loop rest includeQ excludeQ freetexts
      | [q] =>
        if is_include then e.qfs_loop rest (includeQ ++ [q]) excludeQ freetexts
        else e.qfs_loop rest includeQ (excludeQ ++ [q]) freetexts
      | q1 :: q2 :: qtail =>
        let q := Query.Or (q1 :: q2 :: qtail)
        if is_include then e.qfs_loop rest (includeQ ++ [q]) excludeQ freetexts
        else e.qfs_loop rest includeQ (excludeQ ++ [q]) freetexts

/-- Translation of `SearchEngine::query_from_str` (src/engine.rs lines
180-250): lex the input and fold the tokens into a query plus freetext
list. In the source the `Exclude` wrapper is added after the loop; here the
loop's base case adds it, which processes tokens identically. The
identifier classifier of the lexer is the parameter `isAlnum`; Rust's
`char::is_alphanumeric` is one instantiation. -/
def SearchEngine.query_from_str {P : Type} (e : SearchEngine P) (isAlnum : Char → Bool)
    (query_str : String) : SResult (Query × List (List Char)) :=
  e.qfs_loop (tokens query_str.data isAlnum query_str.data.enum) [] [] []

/-! Derived notions used by the theorem statements. -/

/-- The attribute name of a leaf query; combinators have none. -/
def Query.leafAttr : Query → Option String
  | .Exact attr _ | .PrefixQ attr _ | .InRange attr _ _
  | .OutRange attr _ _ | .Minimum attr _ | .Maximum attr _ => some attr
  | .Or _ | .And _ | .Exclude _ _ => none

/-- Whether a query is one of the three combinators. -/
def Query.isCombinator : Query → Bool
  | .Or _ | .And _ | .Exclude _ _ => true
  | _ => false

/-- Left fold of intersections over a list of result sets, seeded by the
first set; the empty list gives the empty set, matching the evaluator's
vacuous `And`. -/
def interList {P : Type} [DecidableEq P] : List (Finset P) → Finset P
  | [] => ∅
  | s :: rest => rest.foldl (fun a b => a ∩ b) s

/-- Union of a list of result sets. -/
def unionList {P : Type} [DecidableEq P] (l : List (Finset P)) : Finset P :=
  l.foldl (fun a b => a ∪ b) ∅

/-! Test fixtures used by the witness theorems. -/

/-- Parse a run of decimal digits; the FromStr test instance for Nat. -/
def parseNatChars (l : List Char) : Option Nat :=
  if l.isEmpty then none
  else
    l.foldl
      (fun acc c =>
        match acc with
        | none => none
        | some n => if c.isDigit then some (n * 10 + (c.toNat - 48)) else none)
      (some 0)

instance : FromStr Nat := ⟨fun s => parseNatChars s.data⟩

/-- Fixture: an engine with no indices at all. -/
def emptyEngineN : SearchEngine Nat := ⟨fun _ => none⟩

/-- Fixture: a hash index over Nat keys holding the posting {10, 11} at 1. -/
def hmA : SearchIndexHashMap Nat Nat := ⟨[(1, {10, 11})]⟩

/-- Fixture: a hash index over Nat keys holding the posting {11, 12} at 1. -/
def hmB : SearchIndexHashMap Nat Nat := ⟨[(1, {11, 12})]⟩

/-- Fixture: an engine with the two hash indices under "a" and "b". -/
def engAB : SearchEngine Nat :=
  ⟨fun n => if n = "a" then some hmA.toIface
    else if n = "b" then some hmB.toIface else none⟩

/-- Fixture: a btree index over Nat keys with postings at keys 1 and 5. -/
def btC5 : SearchIndexBTreeRange Nat Nat := ⟨[(1, {10}), (5, {20})]⟩

/-! Helper lemmas about the evaluator loops. -/

theorem foldl_inter_empty {P : Type} [DecidableEq P] (l : List (Finset P)) :
    l.foldl (fun a b => a ∩ b) ∅ = ∅ := by
  induction l with
  | nil => rfl
  | cons s rest ih => simpa [Finset.empty_inter] using ih

theorem mem_foldl_inter {P : Type} [DecidableEq P] (l : List (Finset P)) (a : Finset P)
    (p : P) : p ∈ l.foldl (fun x y => x ∩ y) a ↔ p ∈ a ∧ ∀ s ∈ l, p ∈ s := by
  induction l generalizing a with
  | nil => simp
  | cons s rest ih =>
    simp only [List.foldl_cons, ih, Finset.mem_inter, List.mem_cons]
    constructor
    · rintro ⟨⟨h1, h2⟩, h3⟩
      exact ⟨h1, fun x hx => hx.elim (fun hh => hh ▸ h2) (h3 x)⟩
    · rintro ⟨h1, h2⟩
      exact ⟨⟨h1, h2 s (Or.inl rfl)⟩, fun x hx => h2 x (Or.inr hx)⟩

theorem mem_interList {P : Type} [DecidableEq P] (ss : List (Finset P)) (p : P) :
    p ∈ interList ss ↔ ss ≠ [] ∧ ∀ s ∈ ss, p ∈ s := by
  cases ss with
  | nil => simp [interList]
  | cons s rest =>
    simp only [interList, mem_foldl_inter, List.mem_cons, ne_eq, List.cons_ne_nil,
      not_false_eq_true, true_and]
    constructor
    · rintro ⟨h1, h2⟩
      exact fun x hx => hx.elim (fun hh => hh ▸ h1) (h2 x)
    · intro h
      exact ⟨h s (Or.inl rfl), fun x hx => h x (Or.inr hx)⟩

theorem foldl_union_eq {P : Type} [DecidableEq P] (l : List (Finset P)) (a : Finset P) :
    l.foldl (fun x y => x ∪ y) a = a ∪ unionList l := by
  induction l generalizing a with
  | nil => simp [unionList]
  | cons s rest ih =>
    simp only [unionList, List.foldl_cons, Finset.empty_union] at *
    rw [ih (a ∪ s), ih s, Finset.union_assoc]

theorem unionList_cons {P : Type} [DecidableEq P] (s : Finset P) (l : List (Finset P)) :
    unionList (s :: l) = s ∪ unionList l := by
  simp only [unionList, List.foldl_cons, Finset.empty_union]
  exact foldl_union_eq l s

theorem mem_unionList {P : Type} [DecidableEq P] (ss : List (Finset P)) (p : P) :
    p ∈ unionList ss ↔ ∃ s ∈ ss, p ∈ s := by
  induction ss with
  | nil => simp [unionList]
  | cons s rest ih =>
    rw [unionList_cons]
    simp [ih]

theorem sdiff_sdiff_union {P : Type} [DecidableEq P] (a b c : Finset P) :
    (a \ b) \ c = a \ (b ∪ c) := by
  ext p
  simp only [Finset.mem_sdiff, Finset.mem_union]
  tauto

/-- Evaluate every query of a list left to right, collecting the results,
stopping at the first error; the statement form of "every child search
succeeds with these results". -/
def SearchEngine.searchList {P : Type} [DecidableEq P] (e : SearchEngine P) :
    List Query → SResult (List (Finset P))
  | [] => .ok []
  | q :: rest =>
    match e.search q with
    | .error er => .error er
    | .ok s =>
      match e.searchList rest with
      | .error er => .error er
      | .ok ss => .ok (s :: ss)

theorem searchAndRest_spec {P : Type} [DecidableEq P] (e : SearchEngine P) :
    ∀ (rest : List Query) (ss : List (Finset P)) (acc : Finset P),
      e.searchList rest = .ok ss →
      e.searchAndRest rest acc = .ok (ss.foldl (fun a b => a ∩ b) acc) := by
  intro rest
  induction rest with
  | nil =>
    intro ss acc h
    simp only [SearchEngine.searchList, Except.ok.injEq] at h
    cases h
    rfl
  | cons q tail ih =>
    intro ss acc h
    simp only [SearchEngine.searchList] at h
    cases hq : e.search q with
    | error er => rw [hq] at h; exact Except.noConfusion h
    | ok s =>
      rw [hq] at h
      cases htail : e.searchList tail with
      | error er => rw [htail] at h; exact Except.noConfusion h
      | ok ss2 =>
        rw [htail] at h
        simp only [Except.ok.injEq] at h
        cases h
        simp only [SearchEngine.searchAndRest, hq]
        by_cases hacc : acc ∩ s = ∅
        · simp only [hacc, if_true, List.foldl_cons]
          rw [foldl_inter_empty]
        · simp only [hacc, if_false, List.foldl_cons]
          exact ih ss2 (acc ∩ s) htail

theorem searchExcludeRest_spec {P : Type} [DecidableEq P] (e : SearchEngine P) :
    ∀ (subs : List Query) (ss : List (Finset P)) (acc : Finset P),
      e.searchList subs = .ok ss →
      e.searchExcludeRest subs acc = .ok (acc \ unionList ss) := by
  intro subs
  induction subs with
  | nil =>
    intro ss acc h
    simp only [SearchEngine.searchList, Except.ok.injEq] at h
    cases h
    simp [SearchEngine.searchExcludeRest, unionList]
  | cons q tail ih =>
    intro ss acc h
    simp only [SearchEngine.searchList] at h
    cases hq : e.search q with
    | error er => rw [hq] at h; exact Except.noConfusion h
    | ok s =>
      rw [hq] at h
      cases htail : e.searchList tail with
      | error er => rw [htail] at h; exact Except.noConfusion h
      | ok ss2 =>
        rw [htail] at h
        simp only [Except.ok.injEq] at h
        cases h
        simp only [SearchEngine.searchExcludeRest, hq]
        rw [unionList_cons, ← sdiff_sdiff_union]
        by_cases hacc : acc \ s = ∅
        · simp only [hacc, if_true]
          simp
        · simp only [hacc, if_false]
          exact ih ss2 (acc \ s) htail

theorem searchAndRest_append_empty {P : Type} [DecidableEq P] (e : SearchEngine P) :
    ∀ (subs : List Query) (acc : Finset P) (rest : List Query),
      e.searchAndRest subs acc = .ok ∅ → (acc ≠ ∅ ∨ subs ≠ []) →
      e.searchAndRest (subs ++ rest) acc = .ok ∅ := by
  intro subs
  induction subs with
  | nil =>
    intro acc rest h hne
    simp only [SearchEngine.searchAndRest, Except.ok.injEq] at h
    rcases hne with hne | hne
    · exact absurd h hne
    · exact absurd rfl hne
  | cons q tail ih =>
    intro acc rest h hne
    simp only [SearchEngine.searchAndRest] at h
    cases hq : e.search q with
    | error er => rw [hq] at h; exact Except.noConfusion h
    | ok s =>
      rw [hq] at h
      simp only [SearchEngine.searchAndRest, List.cons_append, hq]
      by_cases hacc : acc ∩ s = ∅
      · simp [hacc]
      · simp only [hacc, if_false] at h ⊢
        exact ih (acc ∩ s) rest h (Or.inl hacc)

theorem searchExcludeRest_append_empty {P : Type} [DecidableEq P] (e : SearchEngine P) :
    ∀ (subs : List Query) (acc : Finset P) (rest : List Query),
      e.searchExcludeRest subs acc = .ok ∅ → (acc ≠ ∅ ∨ subs ≠ []) →
      e.searchExcludeRest (subs ++ rest) acc = .ok ∅ := by
  intro subs
  induction subs with
  | nil =>
    intro acc rest h hne
    simp only [SearchEngine.searchExcludeRest, Except.ok.injEq] at h
    rcases hne with hne | hne
    · exact absurd h hne
    · exact absurd rfl hne
  | cons q tail ih =>
    intro acc rest h hne
    simp only [SearchEngine.searchExcludeRest] at h
    cases hq : e.search q with
    | error er => rw [hq] at h; exact Except.noConfusion h
    | ok s =>
      rw [hq] at h
      simp only [SearchEngine.searchExcludeRest, List.cons_append, hq]
      by_cases hacc : acc \ s = ∅
      · simp [hacc]
      · simp only [hacc, if_false] at h ⊢
        exact ih (acc \ s) rest h (Or.inl hacc)

theorem mem_search_range {P V : Type} [DecidableEq P] (t : SearchIndexBTreeRange P V)
    (mem : V → Bool) (p : P) :
    p ∈ t.search_range mem ↔ ∃ kv ∈ t.index, mem kv.1 = true ∧ p ∈ kv.2 := by
  have aux : ∀ (l : List (V × Finset P)) (acc : Finset P),
      p ∈ l.foldl (fun acc kv => if mem kv.1 then acc ∪ kv.2 else acc) acc ↔
        p ∈ acc ∨ ∃ kv ∈ l, mem kv.1 = true ∧ p ∈ kv.2 := by
    intro l
    induction l with
    | nil => simp
    | cons kv rest ih =>
      intro acc
      simp only [List.foldl_cons]
      by_cases hm : mem kv.1 = true
      · simp only [hm, if_true, ih, Finset.mem_union, List.mem_cons]
        constructor
        · rintro (⟨h | h⟩ | ⟨x, hx, hmx, hpx⟩)
          · exact Or.inl h
          · exact Or.inr ⟨kv, Or.inl rfl, hm, h⟩
          · exact Or.inr ⟨x, Or.inr hx, hmx, hpx⟩
        · rintro (h | ⟨x, hx | hx, hmx, hpx⟩)
          · exact Or.inl (Or.inl h)
          · exact Or.inl (Or.inr (hx ▸ hpx))
          · exact Or.inr ⟨x, hx, hmx, hpx⟩
      · simp only [hm, if_false, ih, List.mem_cons]
        constructor
        · rintro (h | ⟨x, hx, hmx, hpx⟩)
          · exact Or.inl h
          · exact Or.inr ⟨x, Or.inr hx, hmx, hpx⟩
        · rintro (h | ⟨x, hx | hx, hmx, hpx⟩)
          · exact Or.inl h
          · exact absurd (hx ▸ hmx) hm
          · exact Or.inr ⟨x, hx, hmx, hpx⟩
  exact aux t.index ∅ |>.trans (by simp)

/-! The claim theorems. -/

/-- C1: every index instance declares exactly the capability set the spec
assigns to its type: {Exact} for the hash index, {Exact, Prefix} for the
prefix-tree index, and {Exact, InRange, OutRange, Minimum, Maximum} for the
ordered-range index. -/
theorem supported_queries_exact_sets {P V : Type} :
    (∀ t : SearchIndexHashMap P V, t.supported_queries = SUPPORTS_EXACT) ∧
    (∀ t : SearchIndexPrefixTree P,
        t.supported_queries = SUPPORTS_EXACT ||| SUPPORTS_PREFIXQ) ∧
    (∀ t : SearchIndexBTreeRange P V,
        t.supported_queries =
          SUPPORTS_EXACT ||| SUPPORTS_INRANGE ||| SUPPORTS_OUTRANGE |||
            SUPPORTS_MINIMUM ||| SUPPORTS_MAXIMUM) :=
  by
  refine ⟨fun t => rfl, fun t => rfl, fun t => ?_⟩
  show SUPPORTS_EXACT ||| SUPPORTS_INRANGE ||| SUPPORTS_MINIMUM ||| SUPPORTS_MAXIMUM |||
      SUPPORTS_OUTRANGE =
    SUPPORTS_EXACT ||| SUPPORTS_INRANGE ||| SUPPORTS_OUTRANGE ||| SUPPORTS_MINIMUM |||
      SUPPORTS_MAXIMUM
  decide

/-- C2: for every engine and list of subqueries whose searches all succeed
with results ss, And([p1..pn]) succeeds with the left fold of intersections
of the child results (which is their intersection, second conjunct); in
particular And([]) returns the empty set, not the universe. -/
theorem and_search_is_intersection {P : Type} [DecidableEq P] (e : SearchEngine P)
    (qs : List Query) (ss : List (Finset P)) (h : e.searchList qs = .ok ss) :
    e.search (.And qs) = .ok (interList ss) ∧
      (∀ p, p ∈ interList ss ↔ ss ≠ [] ∧ ∀ s ∈ ss, p ∈ s) := by
  refine ⟨?_, fun p => mem_interList ss p⟩
  cases qs with
  | nil =>
    simp only [SearchEngine.searchList, Except.ok.injEq] at h
    cases h
    rfl
  | cons q rest =>
    simp only [SearchEngine.searchList] at h
    cases hq : e.search q with
    | error er => rw [hq] at h; exact Except.noConfusion h
    | ok s =>
      rw [hq] at h
      cases hrest : e.searchList rest with
      | error er => rw [hrest] at h; exact Except.noConfusion h
      | ok ss2 =>
        rw [hrest] at h
        simp only [Except.ok.injEq] at h
        cases h
        show e.searchAndFirst (q :: rest) = Except.ok (interList (s :: ss2))
        simp only [SearchEngine.searchAndFirst, hq, interList]
        by_cases hs : s = ∅
        · simp only [hs, if_true]
          rw [foldl_inter_empty]
        · simp only [hs, if_false]
          exact searchAndRest_spec e rest ss2 s hrest

/-- C3: for every engine, base query and subtractor list whose searches all
succeed, Exclude(b, subs) succeeds with the base result minus the union of
the subtractor results. -/
theorem exclude_search_is_difference {P : Type} [DecidableEq P] (e : SearchEngine P)
    (b : Query) (subs : List Query) (sb : Finset P) (ss : List (Finset P))
    (hb : e.search b = .ok sb) (hs : e.searchList subs = .ok ss) :
    e.search (.Exclude b subs) = .ok (sb \ unionList ss) ∧
      (∀ p, p ∈ sb \ unionList ss ↔ p ∈ sb ∧ ¬∃ s ∈ ss, p ∈ s) := by
  constructor
  · show (match e.search b with
      | Except.error er => Except.error er
      | Except.ok s => e.searchExcludeRest subs s) = Except.ok (sb \ unionList ss)
    rw [hb]
    exact searchExcludeRest_spec e subs ss sb hs
  · intro p
    simp [Finset.mem_sdiff, mem_unionList]

/-- C5: on the ordered-range index, OutRange with parseable bounds returns
the union of the postings with keys strictly below the lower bound and
strictly above the upper bound, and returns the empty set when the lower
bound exceeds the upper bound. -/
theorem outrange_strict_union {P V : Type} [DecidableEq P] [DecidableEq V]
    [LinearOrder V] [FromStr V]
    (t : SearchIndexBTreeRange P V) (a lo hi : String) (vlo vhi : V)
    (hlo : FromStr.fromStr lo = some vlo) (hhi : FromStr.fromStr hi = some vhi) :
    (vlo ≤ vhi →
      t.search (.OutRange a lo hi) =
        .ok (t.search_range (fun k => decide (k < vlo)) ∪
             t.search_range (fun k => decide (vhi < k))) ∧
      ∀ p, p ∈ t.search_range (fun k => decide (k < vlo)) ∪
              t.search_range (fun k => decide (vhi < k)) ↔
            ∃ kv ∈ t.index, (kv.1 < vlo ∨ vhi < kv.1) ∧ p ∈ kv.2) ∧
    (vhi < vlo → t.search (.OutRange a lo hi) = .ok ∅) := by
  have hps : string_to_payload_type V lo = .ok vlo := by
    simp [string_to_payload_type, hlo]
  have hpe : string_to_payload_type V hi = .ok vhi := by
    simp [string_to_payload_type, hhi]
  constructor
  · intro hle
    constructor
    · simp only [SearchIndexBTreeRange.search, hps, hpe]
      rw [if_neg (by simpa using not_lt.mpr hle)]
    · intro p
      simp only [Finset.mem_union, mem_search_range, decide_eq_true_eq]
      constructor
      · rintro (⟨kv, hkv, hlt, hp⟩ | ⟨kv, hkv, hgt, hp⟩)
        · exact ⟨kv, hkv, Or.inl hlt, hp⟩
        · exact ⟨kv, hkv, Or.inr hgt, hp⟩
      · rintro ⟨kv, hkv, hlt | hgt, hp⟩
        · exact Or.inl ⟨kv, hkv, hlt, hp⟩
        · exact Or.inr ⟨kv, hkv, hgt, hp⟩
  · intro hlt
    simp only [SearchIndexBTreeRange.search, hps, hpe]
    rw [if_pos (by simpa using hlt)]

/-- C9: calling search directly on any of the three index types with a
combinator query (Or, And or Exclude) always returns UnsupportedQuery. -/
theorem combinators_unsupported_on_indices {P V : Type} [DecidableEq P] [DecidableEq V]
    [LinearOrder V] [FromStr V] (q : Query) (h : q.isCombinator = true) :
    (∀ t : SearchIndexHashMap P V, t.search q = .error .UnsupportedQuery) ∧
    (∀ t : SearchIndexBTreeRange P V, t.search q = .error .UnsupportedQuery) ∧
    (∀ t : SearchIndexPrefixTree P, t.search q = .error .UnsupportedQuery) := by
  cases q <;>
    first
    | exact ⟨fun t => rfl, fun t => rfl, fun t => rfl⟩
    | exact absurd h (by simp [Query.isCombinator])

/-- C10: once the accumulator of an And or Exclude is empty, the remaining
children are never evaluated (appending any further children, even ones
that would fail, keeps the result Ok(∅)); concretely there are an engine
and queries p, q with search(q) an UnknownAttribute error, search(p) = Ok(∅)
and search(And [p, q]) = Ok(∅). -/
theorem short_circuit_skips_children {P : Type} [DecidableEq P] :
    (∀ (e : SearchEngine P) (ps rest : List Query), ps ≠ [] →
        e.search (.And ps) = .ok ∅ → e.search (.And (ps ++ rest)) = .ok ∅) ∧
    (∀ (e : SearchEngine P) (b : Query) (subs rest : List Query), subs ≠ [] →
        e.search (.Exclude b subs) = .ok ∅ →
        e.search (.Exclude b (subs ++ rest)) = .ok ∅) ∧
    (∃ (e : SearchEngine Nat) (p q : Query),
        e.search q = .error .UnknownAttribute ∧ e.search p = .ok ∅ ∧
        e.search (.And [p, q]) = .ok ∅) := by
  refine ⟨?_, ?_, emptyEngineN, .And [], .Exact "a" "b", rfl, rfl, rfl⟩
  · intro e ps rest hne h
    cases ps with
    | nil => exact absurd rfl hne
    | cons p0 tail =>
      replace h : e.searchAndFirst (p0 :: tail) = .ok ∅ := h
      show e.searchAndFirst (p0 :: (tail ++ rest)) = .ok ∅
      simp only [SearchEngine.searchAndFirst] at h ⊢
      cases hp : e.search p0 with
      | error er => rw [hp] at h; exact Except.noConfusion h
      | ok s =>
        rw [hp] at h
        by_cases hs : s = ∅
        · simpa [hs] using h
        · simp only [hs, if_false] at h ⊢
          exact searchAndRest_append_empty e tail s rest h (Or.inl hs)
  · intro e b subs rest hne h
    replace h : (match e.search b with
      | Except.error er => Except.error er
      | Except.ok s => e.searchExcludeRest subs s) = Except.ok (∅ : Finset P) := h
    show (match e.search b with
      | Except.error er => Except.error er
      | Except.ok s => e.searchExcludeRest (subs ++ rest) s) = Except.ok (∅ : Finset P)
    cases hb : e.search b with
    | error er => rw [hb] at h; exact Except.noConfusion h
    | ok s =>
      rw [hb] at h
      simp only at h ⊢
      exact searchExcludeRest_append_empty e subs s rest h (Or.inr hne)

theorem qfs_loop_unknown {P : Type} (e : SearchEngine P) :
    ∀ (toks : List QueryToken) (incQ excQ : List Query) (fts : List (List Char)),
      (∃ nm inc vs, QueryToken.Attribute inc nm vs ∈ toks ∧
        e.indices (String.mk nm) = none) →
      e.qfs_loop toks incQ excQ fts = .error .UnknownAttribute := by
  intro toks
  induction toks with
  | nil =>
    rintro _ _ _ ⟨nm, inc, vs, hmem, _⟩
    simp at hmem
  | cons tok rest ih =>
    rintro incQ excQ fts ⟨nm, inc, vs, hmem, hnone⟩
    cases tok with
    | Freetext text =>
      simp only [SearchEngine.qfs_loop]
      refine ih _ _ _ ⟨nm, inc, vs, ?_, hnone⟩
      rcases List.mem_cons.mp hmem with h | h
      · exact absurd h (by simp)
      · exact h
    | Attribute i2 nm2 vs2 =>
      simp only [SearchEngine.qfs_loop]
      cases hidx : e.indices (String.mk nm2) with
      | none => rfl
      | some index =>
        have hrest : QueryToken.Attribute inc nm vs ∈ rest := by
          rcases List.mem_cons.mp hmem with h | h
          · obtain ⟨-, rfl, -⟩ := QueryToken.Attribute.inj h.symm
            rw [hidx] at hnone
            exact Option.noConfusion hnone
          · exact h
        have hbad : ∃ nm inc vs, QueryToken.Attribute inc nm vs ∈ rest ∧
            e.indices (String.mk nm) = none := ⟨nm, inc, vs, hrest, hnone⟩
        cases hqs : vs2.map (query_from_value index.supported_queries (String.mk nm2)) with
        | nil =>
          simp only [hqs]
          exact ih _ _ _ hbad
        | cons q1 qtail =>
          cases qtail with
          | nil =>
            simp only [hqs]
            by_cases hi2 : i2 = true
            · simp only [hi2, if_true]
              exact ih _ _ _ hbad
            · simp only [Bool.not_eq_true] at hi2
              simp only [hi2, Bool.false_eq_true, if_false]
              exact ih _ _ _ hbad
          | cons q2 qtail2 =>
            simp only [hqs]
            by_cases hi2 : i2 = true
            · simp only [hi2, if_true]
              exact ih _ _ _ hbad
            · simp only [Bool.not_eq_true] at hi2
              simp only [hi2, Bool.false_eq_true, if_false]
              exact ih _ _ _ hbad

/-- C7: a leaf query naming an unregistered attribute fails with
UnknownAttribute, and query_from_str fails with UnknownAttribute whenever
the token stream contains an attribute token naming an unregistered index;
the second part holds for every identifier classifier, in particular for
Rust's `char::is_alphanumeric`. -/
theorem unknown_attribute_error {P : Type} [DecidableEq P] :
    (∀ (e : SearchEngine P) (q : Query) (a : String),
        q.leafAttr = some a → e.indices a = none →
        e.search q = .error .UnknownAttribute) ∧
    (∀ (e : SearchEngine P) (isAlnum : Char → Bool) (s : String) (inc : Bool)
        (nm : List Char) (vs : List (List Char)),
        QueryToken.Attribute inc nm vs ∈ tokens s.data isAlnum s.data.enum →
        e.indices (String.mk nm) = none →
        e.query_from_str isAlnum s = .error .UnknownAttribute) := by
  constructor
  · intro e q a hleaf hnone
    cases q <;>
      first
      | (simp only [Query.leafAttr, Option.some.injEq] at hleaf
         subst hleaf
         simp [SearchEngine.search, hnone])
      | simp [Query.leafAttr] at hleaf
  · intro e isAlnum s inc nm vs hmem hnone
    exact qfs_loop_unknown e _ [] [] [] ⟨nm, inc, vs, hmem, hnone⟩

/-! Witness theorems: concrete instantiations of the claim theorems. -/

/-- Witness for C2 at a concrete engine and query list. -/
theorem and_search_is_intersection_witness :
    engAB.searchList [.Exact "a" "1", .Exact "b" "1"] =
      .ok [({10, 11} : Finset Nat), {11, 12}] ∧
    engAB.search (.And [.Exact "a" "1", .Exact "b" "1"]) =
      .ok (interList [({10, 11} : Finset Nat), {11, 12}]) := by
  have hlist : engAB.searchList [.Exact "a" "1", .Exact "b" "1"] =
      .ok [({10, 11} : Finset Nat), {11, 12}] := by rfl
  exact ⟨hlist, (and_search_is_intersection engAB _ _ hlist).1⟩

/-- Witness for C3 at a concrete engine, base and subtractor. -/
theorem exclude_search_is_difference_witness :
    engAB.search (.Exact "a" "1") = .ok ({10, 11} : Finset Nat) ∧
    engAB.searchList [.Exact "b" "1"] = .ok [({11, 12} : Finset Nat)] ∧
    engAB.search (.Exclude (.Exact "a" "1") [.Exact "b" "1"]) =
      .ok (({10, 11} : Finset Nat) \ unionList [{11, 12}]) := by
  have hb : engAB.search (.Exact "a" "1") = .ok ({10, 11} : Finset Nat) := by rfl
  have hs : engAB.searchList [.Exact "b" "1"] = .ok [({11, 12} : Finset Nat)] := by rfl
  exact ⟨hb, hs, (exclude_search_is_difference engAB _ _ _ _ hb hs).1⟩

/-- Witness for C5 at a concrete index and reversed bounds. -/
theorem outrange_strict_union_witness :
    btC5.search (.OutRange "a" "4" "2") = .ok ∅ :=
  (outrange_strict_union btC5 "a" "4" "2" 4 2 (by decide) (by decide)).2 (by decide)

/-- Witness for C9 at the empty Or query. -/
theorem combinators_unsupported_witness :
    (Query.Or []).isCombinator = true ∧
    (⟨[]⟩ : SearchIndexHashMap Nat Nat).search (.Or []) = .error .UnsupportedQuery ∧
    (⟨[]⟩ : SearchIndexBTreeRange Nat Nat).search (.Or []) = .error .UnsupportedQuery ∧
    (⟨⟨[⟨none, []⟩], []⟩⟩ : SearchIndexPrefixTree Nat).search (.Or []) =
      .error .UnsupportedQuery := by
  have h := combinators_unsupported_on_indices (P := Nat) (V := Nat) (.Or []) rfl
  exact ⟨rfl, h.1 _, h.2.1 _, h.2.2 _⟩

/-- Witness for C10: the And short-circuit applied at a concrete engine. -/
theorem short_circuit_witness :
    emptyEngineN.search (.And ([.And []] ++ [.Exact "a" "b"])) = .ok ∅ :=
  (short_circuit_skips_children (P := Nat)).1 emptyEngineN [.And []] [.Exact "a" "b"]
    (by simp) rfl

/-- Witness for C7 at the empty engine, with the ASCII instantiation of the
identifier classifier. -/
theorem unknown_attribute_witness :
    emptyEngineN.search (.Exact "a" "b") = .error .UnknownAttribute ∧
    emptyEngineN.query_from_str asciiAlnum "+a:b" = .error .UnknownAttribute := by
  have h := unknown_attribute_error (P := Nat)
  refine ⟨h.1 emptyEngineN (.Exact "a" "b") "a" rfl rfl, ?_⟩
  exact h.2 emptyEngineN asciiAlnum "+a:b" true ['a'] [['b']] (by decide) rfl

/-- Leaf selection for one value of an attribute token, written from the
words of the specification (§4.7): Minimum on a leading `>` when the index
supports Minimum; else Maximum on `<`; else Exact on `=`; else InRange when
the value contains `-`, the index supports InRange and splitting on `-`
yields exactly two parts; else Prefix when supported; else Exact even when
the index does not declare Exact. Capability membership is read as the bit
of the mask (Exact = bit 0, Prefix = bit 1, InRange = bit 2, Minimum =
bit 4, Maximum = bit 5). -/
def leaf_for_value_spec (supported : SupportedQueries) (attr : String) (v : List Char) :
    Query :=
  if supported.testBit 4 = true ∧ v.head? = some '>' then .Minimum attr (String.mk v.tail)
  else if supported.testBit 5 = true ∧ v.head? = some '<' then
    .Maximum attr (String.mk v.tail)
  else if supported.testBit 0 = true ∧ v.head? = some '=' then
    .Exact attr (String.mk v.tail)
  else if supported.testBit 2 = true ∧ '-' ∈ v ∧ (v.splitOn '-').length = 2 then
    .InRange attr (String.mk ((v.splitOn '-').getD 0 []))
      (String.mk ((v.splitOn '-').getD 1 []))
  else if supported.testBit 1 = true then .PrefixQ attr (String.mk v)
  else .Exact attr (String.mk v)

theorem land_one_shift_ne_zero (n k : Nat) :
    ((n &&& (1 <<< k)) ≠ 0) ↔ n.testBit k = true := by
  rw [Nat.one_shiftLeft, Nat.and_two_pow]
  have h2 : (2 : Nat) ^ k ≠ 0 := Nat.pos_iff_ne_zero.mp (Nat.pow_pos (by omega))
  cases h : n.testBit k <;> simp [h, h2]

theorem startsWithChar_iff (v : List Char) (c : Char) :
    (query_from_value.startsWithChar v c = true) ↔ v.head? = some c := by
  cases v <;> simp [query_from_value.startsWithChar]

/-- C4: the compiler maps each value string of an attribute token to a leaf
query by exactly the precedence the specification lists: Minimum on `>`,
then Maximum on `<`, then Exact on `=`, then InRange on a two-part `-`
split, then Prefix, then the Exact fallback, each gated on the index's
capability bitmask. -/
theorem query_from_value_precedence (supported : SupportedQueries) (attr : String)
    (v : List Char) :
    query_from_value supported attr v = leaf_for_value_spec supported attr v := by
  have hb4 : ((supported &&& SUPPORTS_MINIMUM) ≠ 0) ↔ supported.testBit 4 = true :=
    land_one_shift_ne_zero supported 4
  have hb5 : ((supported &&& SUPPORTS_MAXIMUM) ≠ 0) ↔ supported.testBit 5 = true :=
    land_one_shift_ne_zero supported 5
  have hb0 : ((supported &&& SUPPORTS_EXACT) ≠ 0) ↔ supported.testBit 0 = true :=
    land_one_shift_ne_zero supported 0
  have hb2 : ((supported &&& SUPPORTS_INRANGE) ≠ 0) ↔ supported.testBit 2 = true :=
    land_one_shift_ne_zero supported 2
  have hb1 : ((supported &&& SUPPORTS_PREFIXQ) ≠ 0) ↔ supported.testBit 1 = true :=
    land_one_shift_ne_zero supported 1
  have hcont : (v.contains '-' = true) ↔ '-' ∈ v := by
    simp [List.contains, List.elem_iff]
  unfold query_from_value leaf_for_value_spec
  dsimp only
  by_cases h1 : supported.testBit 4 = true ∧ v.head? = some '>'
  · have c1 : (decide ((supported &&& SUPPORTS_MINIMUM) ≠ 0) &&
        query_from_value.startsWithChar v '>') = true := by
      rw [Bool.and_eq_true, decide_eq_true_eq, startsWithChar_iff]
      exact ⟨hb4.mpr h1.1, h1.2⟩
    rw [if_pos c1, if_pos h1, List.drop_one]
  · have c1 : ¬((decide ((supported &&& SUPPORTS_MINIMUM) ≠ 0) &&
        query_from_value.startsWithChar v '>') = true) := by
      rw [Bool.and_eq_true, decide_eq_true_eq, startsWithChar_iff]
      exact fun hc => h1 ⟨hb4.mp hc.1, hc.2⟩
    rw [if_neg c1, if_neg h1]
    by_cases h2 : supported.testBit 5 = true ∧ v.head? = some '<'
    · have c2 : (decide ((supported &&& SUPPORTS_MAXIMUM) ≠ 0) &&
          query_from_value.startsWithChar v '<') = true := by
        rw [Bool.and_eq_true, decide_eq_true_eq, startsWithChar_iff]
        exact ⟨hb5.mpr h2.1, h2.2⟩
      rw [if_pos c2, if_pos h2, List.drop_one]
    · have c2 : ¬((decide ((supported &&& SUPPORTS_MAXIMUM) ≠ 0) &&
          query_from_value.startsWithChar v '<') = true) := by
        rw [Bool.and_eq_true, decide_eq_true_eq, startsWithChar_iff]
        exact fun hc => h2 ⟨hb5.mp hc.1, hc.2⟩
      rw [if_neg c2, if_neg h2]
      by_cases h3 : supported.testBit 0 = true ∧ v.head? = some '='
      · have c3 : (decide ((supported &&& SUPPORTS_EXACT) ≠ 0) &&
            query_from_value.startsWithChar v '=') = true := by
          rw [Bool.and_eq_true, decide_eq_true_eq, startsWithChar_iff]
          exact ⟨hb0.mpr h3.1, h3.2⟩
        rw [if_pos c3, if_pos h3, List.drop_one]
      · have c3 : ¬((decide ((supported &&& SUPPORTS_EXACT) ≠ 0) &&
            query_from_value.startsWithChar v '=') = true) := by
          rw [Bool.and_eq_true, decide_eq_true_eq, startsWithChar_iff]
          exact fun hc => h3 ⟨hb0.mp hc.1, hc.2⟩
        rw [if_neg c3, if_neg h3]
        by_cases h4a : supported.testBit 2 = true ∧ '-' ∈ v
        · have c4 : (decide ((supported &&& SUPPORTS_INRANGE) ≠ 0) &&
              v.contains '-') = true := by
            rw [Bool.and_eq_true, decide_eq_true_eq]
            exact ⟨hb2.mpr h4a.1, hcont.mpr h4a.2⟩
          rw [if_pos c4]
          by_cases hlen : (v.splitOn '-').length = 2
          · rw [if_pos hlen]
            dsimp only
            rw [if_pos (show supported.testBit 2 = true ∧ '-' ∈ v ∧
              (v.splitOn '-').length = 2 from ⟨h4a.1, h4a.2, hlen⟩)]
          · rw [if_neg hlen]
            dsimp only
            rw [if_neg (show ¬(supported.testBit 2 = true ∧ '-' ∈ v ∧
              (v.splitOn '-').length = 2) from fun hh => hlen hh.2.2)]
            by_cases h5 : supported.testBit 1 = true
            · rw [if_pos (show (supported &&& SUPPORTS_PREFIXQ) ≠ 0 from hb1.mpr h5),
                if_pos h5]
            · rw [if_neg (show ¬((supported &&& SUPPORTS_PREFIXQ) ≠ 0) from
                fun hc => h5 (hb1.mp hc)), if_neg h5]
        · have c4 : ¬((decide ((supported &&& SUPPORTS_INRANGE) ≠ 0) &&
              v.contains '-') = true) := by
            rw [Bool.and_eq_true, decide_eq_true_eq]
            exact fun hc => h4a ⟨hb2.mp hc.1, hcont.mp hc.2⟩
          rw [if_neg c4]
          dsimp only
          rw [if_neg (show ¬(supported.testBit 2 = true ∧ '-' ∈ v ∧
            (v.splitOn '-').length = 2) from fun hh => h4a ⟨hh.1, hh.2.1⟩)]
          by_cases h5 : supported.testBit 1 = true
          · rw [if_pos (show (supported &&& SUPPORTS_PREFIXQ) ≠ 0 from hb1.mpr h5),
              if_pos h5]
          · rw [if_neg (show ¬((supported &&& SUPPORTS_PREFIXQ) ≠ 0) from
              fun hc => h5 (hb1.mp hc)), if_neg h5]

/-! Development for the lexer sign-fallback claim (C6). -/

/-- The maximal non-whitespace run starting at character position i: the
text of the freetext token the lexer reads from position i. -/
def nonWsRun (cs : List Char) (i : Nat) : List Char :=
  (cs.drop i).takeWhile (fun c => !rustIsWhitespace c)

/-- Position of the first whitespace character at or after position i (the
input length if there is none). -/
def wsEndAt (cs : List Char) (i : Nat) : Nat := i + (nonWsRun cs i).length

/-- Length of the maximal alphanumeric run starting at position i, for the
given identifier classifier. -/
def alnumRunLen (isAlnum : Char → Bool) (cs : List Char) (i : Nat) : Nat :=
  ((cs.drop i).takeWhile isAlnum).length

/-- ASCII alphanumerics are not Unicode whitespace: the disjointness
property of the witness classifier. -/
theorem asciiAlnum_not_ws (c : Char) (h : asciiAlnum c = true) :
    rustIsWhitespace c = false := by
  rw [Bool.eq_false_iff]
  intro hw
  unfold asciiAlnum at h
  unfold rustIsWhitespace at hw
  simp only [Bool.or_eq_true, Bool.and_eq_true, decide_eq_true_eq] at h hw
  omega

theorem slice_eq_take_drop (cs : List Char) (a n : Nat) :
    slice cs a (a + n) = (cs.drop a).take n := by
  unfold slice
  rw [List.drop_take]
  congr 1
  omega

theorem slice_length_eq_drop (cs : List Char) (a : Nat) :
    slice cs a cs.length = cs.drop a := by
  unfold slice
  rw [List.take_length]

theorem nonWsRun_eq_slice (cs : List Char) (p : Nat) :
    nonWsRun cs p = slice cs p (wsEndAt cs p) := by
  unfold wsEndAt
  rw [slice_eq_take_drop]
  exact List.prefix_iff_eq_take.mp (List.takeWhile_prefix _)

theorem wsEndAt_step (cs : List Char) (p : Nat) (c : Char)
    (hc : cs.drop p = c :: cs.drop (p + 1)) (hws : rustIsWhitespace c = false) :
    wsEndAt cs p = wsEndAt cs (p + 1) := by
  unfold wsEndAt nonWsRun
  rw [hc]
  simp only [List.takeWhile_cons, hws, Bool.not_false, if_true, List.length_cons]
  omega

theorem drop_cons_of_getElem (cs : List Char) (p : Nat) (c : Char)
    (h : cs[p]? = some c) : cs.drop p = c :: cs.drop (p + 1) := by
  rcases List.getElem?_eq_some.mp h with ⟨hlt, he⟩
  rw [List.drop_eq_getElem_cons hlt, he]

theorem wsEndAt_congr (cs : List Char) :
    ∀ (n p m : Nat), m - p = n → p ≤ m → m ≤ cs.length →
      (∀ k, p ≤ k → k < m → ∃ c, cs[k]? = some c ∧ rustIsWhitespace c = false) →
      wsEndAt cs p = wsEndAt cs m := by
  intro n
  induction n with
  | zero =>
    intro p m h hpm _ _
    have hh : p = m := by omega
    rw [hh]
  | succ n ih =>
    intro p m h hpm hm hchars
    have hplt : p < m := by omega
    obtain ⟨c, hc, hcw⟩ := hchars p (Nat.le_refl _) hplt
    rw [wsEndAt_step cs p c (drop_cons_of_getElem cs p c hc) hcw]
    exact ih (p + 1) m (by omega) (by omega) hm (fun k hk1 hk2 => hchars k (by omega) hk2)

/-- Behavior of read_freetext on the iterator state at position p: it
returns the slice from `s` to the first whitespace at or after p, leaving
the iterator at that whitespace. -/
theorem read_freetext_at (cs : List Char) (s : Nat) :
    ∀ (n p : Nat), cs.length - p = n → p ≤ cs.length →
      read_freetext cs s ((cs.drop p).enumFrom p) =
        (.Freetext (slice cs s (wsEndAt cs p)),
          (cs.drop (wsEndAt cs p)).enumFrom (wsEndAt cs p)) := by
  intro n
  induction n with
  | zero =>
    intro p hn hp
    have hpl : p = cs.length := by omega
    have hd : cs.drop p = [] := by
      rw [hpl, List.drop_length]
    have hwse : wsEndAt cs p = p := by
      unfold wsEndAt nonWsRun
      rw [hd]
      rfl
    rw [hd, hwse, hd]
    simp only [List.enumFrom, read_freetext]
    rw [hpl]
  | succ n ih =>
    intro p hn hp
    have hplt : p < cs.length := by omega
    have hget : cs[p]? = some cs[p] := List.getElem?_eq_getElem hplt
    have hd : cs.drop p = cs[p] :: cs.drop (p + 1) := List.drop_eq_getElem_cons hplt
    rw [hd]
    simp only [List.enumFrom, read_freetext]
    by_cases hws : rustIsWhitespace cs[p]
    · simp only [hws, if_true]
      have hwse : wsEndAt cs p = p := by
        unfold wsEndAt nonWsRun
        rw [hd]
        simp [List.takeWhile_cons, hws]
      rw [hwse, hd]
      simp only [List.enumFrom]
    · have hrec := ih (p + 1) (by omega) (by omega)
      rw [hrec]
      rw [wsEndAt_step cs p cs[p] hd (by simpa using hws)]
      simp [hws]

/-- Behavior of read_attribute_index on the iterator state at position p:
it consumes the maximal alphanumeric run and stops at the first
non-alphanumeric character (reporting whether it is a colon), or returns
the failure pair when it runs off the end of the input. Requires that the
classifier does not count `:` as alphanumeric, as Rust's does not. -/
theorem read_attribute_index_at (cs : List Char) (isAlnum : Char → Bool)
    (hcl : isAlnum ':' = false) (s : Nat) :
    ∀ (n p : Nat), cs.length - p = n → p ≤ cs.length →
      read_attribute_index cs isAlnum s ((cs.drop p).enumFrom p) =
        match cs[(p + alnumRunLen isAlnum cs p)]? with
        | some d => ((slice cs s (p + alnumRunLen isAlnum cs p), d = ':'),
            (cs.drop (p + alnumRunLen isAlnum cs p)).enumFrom
              (p + alnumRunLen isAlnum cs p))
        | none => (([], false), []) := by
  intro n
  induction n with
  | zero =>
    intro p hn hp
    have hpl : p = cs.length := by omega
    have hd : cs.drop p = [] := by rw [hpl, List.drop_length]
    have hr : alnumRunLen isAlnum cs p = 0 := by
      unfold alnumRunLen
      rw [hd]
      rfl
    rw [hd, hr]
    have hnone : cs[(p + 0)]? = none := by
      rw [List.getElem?_eq_none_iff]
      omega
    rw [hnone]
    simp only [List.enumFrom, read_attribute_index]
  | succ n ih =>
    intro p hn hp
    have hplt : p < cs.length := by omega
    have hd : cs.drop p = cs[p] :: cs.drop (p + 1) := List.drop_eq_getElem_cons hplt
    rw [hd]
    simp only [List.enumFrom, read_attribute_index]
    by_cases ha : isAlnum cs[p] = true
    · have hcolon : ¬(cs[p] = ':') := by
        intro hcc
        rw [hcc] at ha
        rw [hcl] at ha
        exact Bool.noConfusion ha
      have hcond : ¬((cs[p] = ':' || !isAlnum cs[p]) = true) := by
        simp [hcolon, ha]
      simp only [decide_eq_true_eq] at hcond
      rw [if_neg (by simpa using hcond)]
      have hr : alnumRunLen isAlnum cs p = alnumRunLen isAlnum cs (p + 1) + 1 := by
        unfold alnumRunLen
        rw [hd]
        simp only [List.takeWhile_cons, ha, if_true, List.length_cons]
      have hrec := ih (p + 1) (by omega) (by omega)
      rw [hrec, hr]
      have hidx : p + (alnumRunLen isAlnum cs (p + 1) + 1) =
          (p + 1) + alnumRunLen isAlnum cs (p + 1) := by
        omega
      rw [hidx]
    · have hcond : (cs[p] = ':' || !isAlnum cs[p]) = true := by
        simp [ha]
      rw [if_pos (by simpa using hcond)]
      have hr : alnumRunLen isAlnum cs p = 0 := by
        unfold alnumRunLen
        rw [hd]
        simp [List.takeWhile_cons, ha]
      rw [hr]
      have hsome : cs[(p + 0)]? = some cs[p] := by
        simpa using List.getElem?_eq_getElem hplt
      rw [hsome]
      rw [show p + 0 = p from rfl, hd]
      simp only [List.enumFrom]

/-- Characters inside the alphanumeric run are alphanumeric. -/
theorem alnumRun_chars (cs : List Char) (isAlnum : Char → Bool) (p k : Nat)
    (hk : k < alnumRunLen isAlnum cs p) :
    ∃ c, cs[(p + k)]? = some c ∧ isAlnum c = true := by
  unfold alnumRunLen at hk
  set tw := (cs.drop p).takeWhile isAlnum with htw
  have hpre : tw <+: cs.drop p := List.takeWhile_prefix _
  obtain ⟨t, ht⟩ := hpre
  have h1 : (cs.drop p)[k]? = tw[k]? := by
    rw [← ht]
    simp [List.getElem?_append, hk]
  have h2 : tw[k]? = some tw[k] := List.getElem?_eq_getElem hk
  refine ⟨tw[k], ?_, ?_⟩
  · rw [← List.getElem?_drop, h1, h2]
  · exact List.mem_takeWhile_imp (List.getElem_mem hk)

/-- C6: whenever the character at position i is a `+` or `-` sign that is
not followed by a non-empty alphanumeric run and then a colon, the lexer
emits the whole token from the sign up to the next whitespace (or the end
of the input) as a single Freetext token. The identifier classifier is any
function with the two properties of Rust's `char::is_alphanumeric` used
here: alphanumeric code points are not White_Space, and `:` is not
alphanumeric. -/
theorem lexer_sign_fallback_freetext (cs : List Char) (isAlnum : Char → Bool)
    (hdisj : ∀ c, isAlnum c = true → rustIsWhitespace c = false)
    (hcl : isAlnum ':' = false) (i : Nat) (sign : Char)
    (hget : cs[i]? = some sign) (hsign : sign = '+' ∨ sign = '-')
    (hbad : alnumRunLen isAlnum cs (i + 1) = 0 ∨
      cs[(i + 1 + alnumRunLen isAlnum cs (i + 1))]? ≠ some ':') :
    ∃ it2, next_token cs isAlnum ((cs.drop i).enumFrom i) =
      some (.Freetext (nonWsRun cs i), it2) := by
  rcases List.getElem?_eq_some.mp hget with ⟨hilt, hie⟩
  have hsignws : rustIsWhitespace sign = false := by
    rcases hsign with rfl | rfl <;> decide
  have hd : cs.drop i = sign :: cs.drop (i + 1) := drop_cons_of_getElem cs i sign hget
  rw [hd]
  simp only [List.enumFrom, next_token, skip_whitespace, hsignws, Bool.false_eq_true,
    if_false]
  have hsigncond : (sign = '+' || sign = '-') = true := by
    rcases hsign with rfl | rfl <;> decide
  rw [if_pos (by simpa using hsigncond)]
  simp only [read_attribute]
  have hrai := read_attribute_index_at cs isAlnum hcl (i + 1) (cs.length - (i + 1))
    (i + 1) rfl (by omega)
  set r := alnumRunLen isAlnum cs (i + 1) with hr
  have hchars : ∀ k, i ≤ k → k < i + 1 + r → ∃ c, cs[k]? = some c ∧
      rustIsWhitespace c = false := by
    intro k hk1 hk2
    rcases Nat.eq_or_lt_of_le hk1 with rfl | hklt
    · exact ⟨sign, hget, hsignws⟩
    · obtain ⟨c, hc, hca⟩ := alnumRun_chars cs isAlnum (i + 1) (k - (i + 1)) (by omega)
      rw [show i + 1 + (k - (i + 1)) = k from by omega] at hc
      exact ⟨c, hc, hdisj c hca⟩
  cases hstop : cs[(i + 1 + r)]? with
  | none =>
    simp only [hstop] at hrai
    rw [hrai]
    dsimp only
    simp only [read_freetext]
    have hrlen : i + 1 + r ≥ cs.length := by
      by_contra hh
      rw [List.getElem?_eq_getElem (by omega)] at hstop
      exact Option.noConfusion hstop
    have hnws : nonWsRun cs i = slice cs i cs.length := by
      rw [nonWsRun_eq_slice]
      congr 1
      have hc2 := wsEndAt_congr cs (cs.length - i) i cs.length rfl (by omega)
        (Nat.le_refl _) (fun k hk1 hk2 => hchars k hk1 (by omega))
      rw [hc2]
      unfold wsEndAt nonWsRun
      rw [List.drop_length]
      rfl
    rw [hnws]
    exact ⟨[], rfl⟩
  | some d =>
    simp only [hstop] at hrai
    rw [hrai]
    dsimp only
    have hstoplt : i + 1 + r < cs.length := by
      rcases List.getElem?_eq_some.mp hstop with ⟨hlt, -⟩
      exact hlt
    have hcondtrue : (!(decide (d = ':')) ||
        (slice cs (i + 1) (i + 1 + r)).isEmpty) = true := by
      rcases hbad with hb | hb
      · have hsl : (slice cs (i + 1) (i + 1 + r)).isEmpty = true := by
          rw [hb]
          rw [show i + 1 + 0 = (i + 1) + 0 from rfl, slice_eq_take_drop]
          rfl
        rw [hsl, Bool.or_true]
      · rw [hstop] at hb
        have hdne : ¬(d = ':') := fun hh => hb (by rw [hh])
        simp [hdne]
    rw [if_pos (by simpa using hcondtrue)]
    have hrf := read_freetext_at cs i (cs.length - (i + 1 + r)) (i + 1 + r) rfl (by omega)
    rw [hrf]
    have hws2 : wsEndAt cs (i + 1 + r) = wsEndAt cs i :=
      (wsEndAt_congr cs ((i + 1 + r) - i) i (i + 1 + r) rfl (by omega) (by omega)
        hchars).symm
    rw [hws2, ← nonWsRun_eq_slice]
    exact ⟨_, rfl⟩

/-- Witness for C6 on the input "+a b" with the ASCII classifier: the sign
is followed by an alphanumeric run but no colon, so the token "+a" is lexed
as Freetext. -/
theorem lexer_sign_fallback_witness :
    nonWsRun "+a b".data 0 = ['+', 'a'] ∧
    ∃ it2, next_token "+a b".data asciiAlnum (("+a b".data.drop 0).enumFrom 0) =
      some (.Freetext (nonWsRun "+a b".data 0), it2) :=
  ⟨by decide,
    lexer_sign_fallback_freetext "+a b".data asciiAlnum asciiAlnum_not_ws (by decide)
      0 '+' (by decide) (Or.inl rfl) (by decide)⟩

/-- Witness for C1 at concrete index instances. -/
theorem supported_queries_witness :
    (⟨[]⟩ : SearchIndexHashMap Nat Nat).supported_queries = SUPPORTS_EXACT ∧
    (⟨⟨[⟨none, []⟩], []⟩⟩ : SearchIndexPrefixTree Nat).supported_queries =
      SUPPORTS_EXACT ||| SUPPORTS_PREFIXQ ∧
    (⟨[]⟩ : SearchIndexBTreeRange Nat Nat).supported_queries =
      SUPPORTS_EXACT ||| SUPPORTS_INRANGE ||| SUPPORTS_OUTRANGE |||
        SUPPORTS_MINIMUM ||| SUPPORTS_MAXIMUM := by
  have h := supported_queries_exact_sets (P := Nat) (V := Nat)
  exact ⟨h.1 _, h.2.1 _, h.2.2 _⟩

/-! Development for the prefix-tree claim (C8): a well-formedness invariant
for the arena, preserved by insert, under which the breadth-first traversal
of get_prefix visits every node exactly once. -/

/-- The node stored at arena index i (the arena accessor used throughout
the source, `self.nodes[i]` modelled with a default). -/
def nodeAt {P : Type} (t : HashSetPrefixTree P) (i : Nat) : TreeNode :=
  t.nodes.getD i (TreeNode.new none)

/-- The child arena indices of a node. -/
def childIds (n : TreeNode) : List Nat := n.children.map (fun e => e.2)

theorem getD_set_self {α : Type} (l : List α) (i : Nat) (v d : α) (h : i < l.length) :
    (l.set i v).getD i d = v := by
  rw [List.getD_eq_getElem?_getD, List.getElem?_set_self (by simpa using h)]
  rfl

theorem getD_set_ne {α : Type} (l : List α) (i j : Nat) (v d : α) (h : i ≠ j) :
    (l.set i v).getD j d = l.getD j d := by
  rw [List.getD_eq_getElem?_getD, List.getElem?_set_ne h, ← List.getD_eq_getElem?_getD]

theorem getD_append_lt {α : Type} (l : List α) (x : α) (i : Nat) (d : α)
    (h : i < l.length) : (l ++ [x]).getD i d = l.getD i d := by
  rw [List.getD_eq_getElem?_getD, List.getElem?_append, if_pos h,
    ← List.getD_eq_getElem?_getD]

theorem getD_append_self {α : Type} (l : List α) (x d : α) :
    (l ++ [x]).getD l.length d = x := by
  rw [List.getD_eq_getElem?_getD]
  simp

theorem getD_append_ge {α : Type} (l : List α) (x d : α) (i : Nat)
    (h : l.length + 1 ≤ i) : (l ++ [x]).getD i d = d := by
  rw [List.getD_eq_getElem?_getD, List.getElem?_eq_none_iff.mpr (by simp; omega)]
  rfl

theorem getD_ge {α : Type} (l : List α) (i : Nat) (d : α) (h : l.length ≤ i) :
    l.getD i d = d := by
  rw [List.getD_eq_getElem?_getD, List.getElem?_eq_none_iff.mpr h]
  rfl

/-- A successful binary search hit names an in-bounds entry whose character
equals the key. -/
theorem binary_search_go_some (children : List (Char × Nat)) (key : Char) :
    ∀ (n lo hi idx : Nat), hi - lo = n → hi ≤ children.length →
      TreeNode.binary_search_go children key lo hi = some idx →
      idx < children.length ∧ (children.getD idx (' ', 0)).1 = key := by
  intro n
  induction n using Nat.strong_induction_on with
  | _ n ih =>
    intro lo hi idx hn hhi h
    rw [TreeNode.binary_search_go] at h
    by_cases hlt : lo < hi
    · rw [dif_pos hlt] at h
      dsimp only at h
      cases hcmp : compare (children.getD ((lo + hi) / 2) (' ', 0)).1 key with
      | lt =>
        rw [hcmp] at h
        exact ih (hi - ((lo + hi) / 2 + 1)) (by omega) ((lo + hi) / 2 + 1) hi idx rfl hhi h
      | gt =>
        rw [hcmp] at h
        exact ih ((lo + hi) / 2 - lo) (by omega) lo ((lo + hi) / 2) idx rfl (by omega) h
      | eq =>
        rw [hcmp] at h
        simp only [Option.some.injEq] at h
        subst h
        exact ⟨by omega, compare_eq_iff_eq.mp hcmp⟩
    · rw [dif_neg hlt] at h
      exact Option.noConfusion h

/-- A find_child hit is an edge of the node carrying the searched key. -/
theorem find_child_mem (n : TreeNode) (key : Char) (j : Nat)
    (h : n.find_child key = some j) : (key, j) ∈ n.children := by
  unfold TreeNode.find_child at h
  cases hbs : TreeNode.binary_search_go n.children key 0 n.children.length with
  | none => rw [hbs] at h; exact Option.noConfusion h
  | some idx =>
    rw [hbs] at h
    simp only [Option.map_some'] at h
    obtain ⟨hlt, hkey⟩ := binary_search_go_some n.children key n.children.length 0
      n.children.length idx (by omega) (Nat.le_refl _) hbs
    have hgd : n.children.getD idx (' ', 0) = n.children[idx] :=
      List.getD_eq_getElem n.children (' ', 0) hlt
    have hel : n.children[idx] = (key, j) := by
      rw [hgd] at hkey h
      cases he : n.children[idx] with
      | mk a b =>
        rw [he] at hkey h
        simp only [Option.some.injEq] at h
        simp only at hkey
        rw [hkey, h]
    rw [← hel]
    exact List.getElem_mem hlt

/-- Membership in the edge list after insert_child: the old edges plus the
new one. -/
theorem insert_child_mem (n : TreeNode) (c : Char) (id : Nat) (e : Char × Nat) :
    e ∈ (n.insert_child c id).children ↔ e ∈ n.children ∨ e = (c, id) := by
  unfold TreeNode.insert_child
  rw [(List.mergeSort_perm _ _).mem_iff]
  simp

/-- The child-id list after insert_child is a permutation of the old one
with the new id appended. -/
theorem insert_child_childIds (n : TreeNode) (c : Char) (id : Nat) :
    List.Perm (childIds (n.insert_child c id)) (childIds n ++ [id]) := by
  unfold TreeNode.insert_child childIds
  have hp := (List.mergeSort_perm (n.children ++ [(c, id)])
    (fun a b => decide (a.1 ≤ b.1))).map (fun e => e.2)
  simpa using hp

theorem insert_child_value (n : TreeNode) (c : Char) (id : Nat) :
    (n.insert_child c id).value = n.value := rfl

/-- Well-formedness of the arena: node 0 exists, edges point upward and in
bounds, every node's children are distinct, every node has at most one
parent, every non-root node has a parent, and value slots are in bounds and
jointly cover the posting arena. Every tree constructible through the
public API satisfies this. -/
structure TreeWF {P : Type} (t : HashSetPrefixTree P) : Prop where
  nonempty : 0 < t.nodes.length
  edges : ∀ i, ∀ e ∈ (nodeAt t i).children, i < e.2 ∧ e.2 < t.nodes.length
  child_nodup : ∀ i, (childIds (nodeAt t i)).Nodup
  parent_unique : ∀ i1 i2 j, i1 < t.nodes.length → i2 < t.nodes.length →
    j ∈ childIds (nodeAt t i1) → j ∈ childIds (nodeAt t i2) → i1 = i2
  reach : ∀ j, 0 < j → j < t.nodes.length → ∃ i, i < t.nodes.length ∧
    j ∈ childIds (nodeAt t i)
  slots : ∀ i vid, (nodeAt t i).value = some vid → vid < t.values.length
  slots_onto : ∀ vid, vid < t.values.length → ∃ i, i < t.nodes.length ∧
    (nodeAt t i).value = some vid

/-- The empty tree is well-formed. -/
theorem treeWF_new (P : Type) : TreeWF (HashSetPrefixTree.new P) := by
  constructor
  · simp [HashSetPrefixTree.new]
  · intro i e he
    exfalso
    revert he
    unfold nodeAt HashSetPrefixTree.new
    match i with
    | 0 => simp [TreeNode.new]
    | j + 1 => simp [TreeNode.new, List.getD]
  · intro i
    unfold nodeAt HashSetPrefixTree.new childIds
    match i with
    | 0 => simp [TreeNode.new]
    | j + 1 => simp [TreeNode.new, List.getD]
  · intro i1 i2 j h1 h2 hm1 hm2
    simp [HashSetPrefixTree.new] at h1 h2
    omega
  · intro j hj1 hj2
    simp [HashSetPrefixTree.new] at hj2
    omega
  · intro i vid hv
    exfalso
    revert hv
    unfold nodeAt HashSetPrefixTree.new
    match i with
    | 0 => simp [TreeNode.new]
    | j + 1 => simp [TreeNode.new, List.getD]
  · intro vid hvid
    simp [HashSetPrefixTree.new] at hvid

/-- The arena indices of the subtree below n (n first), following only
upward in-bounds edges; for well-formed trees this is exactly what the
breadth-first loop of get_prefix visits from n. Proof-side helper. -/
def descList {P : Type} (t : HashSetPrefixTree P) (n : Nat) : List Nat :=
  n :: (((nodeAt t n).children.filter
      (fun e => decide (n < e.2) && decide (e.2 < t.nodes.length))).attach.map
      (fun e => descList t e.1.2)).flatten
termination_by t.nodes.length - n
decreasing_by
  obtain ⟨hmem, hcond⟩ := List.mem_filter.mp e.2
  simp only [Bool.and_eq_true, decide_eq_true_eq] at hcond
  omega

theorem descList_eq_filterMap {P : Type} (t : HashSetPrefixTree P) (n : Nat) :
    descList t n = n :: (((nodeAt t n).children.filter
      (fun e => decide (n < e.2) && decide (e.2 < t.nodes.length))).map
      (fun e => descList t e.2)).flatten := by
  rw [descList.eq_def]
  rw [List.attach_map_val ((nodeAt t n).children.filter
    (fun e => decide (n < e.2) && decide (e.2 < t.nodes.length)))
    (fun x => descList t x.2)]

theorem descList_children {P : Type} (t : HashSetPrefixTree P)
    (hedges : ∀ i, ∀ e ∈ (nodeAt t i).children, i < e.2 ∧ e.2 < t.nodes.length)
    (n : Nat) :
    descList t n = n :: ((nodeAt t n).children.map (fun e => descList t e.2)).flatten := by
  rw [descList_eq_filterMap]
  have hfil : (nodeAt t n).children.filter
      (fun e => decide (n < e.2) && decide (e.2 < t.nodes.length)) =
      (nodeAt t n).children := by
    apply List.filter_eq_self.mpr
    intro e he
    have hh := hedges n e he
    simp [hh.1, hh.2]
  rw [hfil]

theorem mem_descList_self {P : Type} (t : HashSetPrefixTree P) (n : Nat) :
    n ∈ descList t n := by
  rw [descList_eq_filterMap]
  exact List.mem_cons_self _ _

theorem desc_bounds {P : Type} (t : HashSetPrefixTree P) :
    ∀ (k n : Nat), t.nodes.length - n = k → n < t.nodes.length →
      ∀ m ∈ descList t n, n ≤ m ∧ m < t.nodes.length := by
  intro k
  induction k using Nat.strong_induction_on with
  | _ k ih =>
    intro n hk hn m hm
    rw [descList_eq_filterMap] at hm
    rcases List.mem_cons.mp hm with rfl | hm
    · exact ⟨Nat.le_refl _, hn⟩
    · rw [List.mem_flatten] at hm
      obtain ⟨l, hl, hml⟩ := hm
      rw [List.mem_map] at hl
      obtain ⟨e, he, rfl⟩ := hl
      obtain ⟨-, hcond⟩ := List.mem_filter.mp he
      simp only [Bool.and_eq_true, decide_eq_true_eq] at hcond
      have hrec := ih (t.nodes.length - e.2) (by omega) e.2 rfl hcond.2 m hml
      exact ⟨by omega, hrec.2⟩

theorem desc_child_block {P : Type} (t : HashSetPrefixTree P)
    (hedges : ∀ i, ∀ e ∈ (nodeAt t i).children, i < e.2 ∧ e.2 < t.nodes.length)
    (n j : Nat) (hj : j ∈ childIds (nodeAt t n)) :
    ∀ m ∈ descList t j, m ∈ descList t n := by
  intro m hm
  rw [descList_children t hedges n]
  refine List.mem_cons.mpr (Or.inr ?_)
  rw [List.mem_flatten]
  obtain ⟨e, he, hej⟩ := List.mem_map.mp hj
  exact ⟨descList t j, List.mem_map.mpr ⟨e, he, by rw [hej]⟩, hm⟩

theorem desc_parent {P : Type} (t : HashSetPrefixTree P)
    (hedges : ∀ i, ∀ e ∈ (nodeAt t i).children, i < e.2 ∧ e.2 < t.nodes.length) :
    ∀ (k n : Nat), t.nodes.length - n = k → n < t.nodes.length →
      ∀ m ∈ descList t n, m ≠ n →
      ∃ p, p ∈ descList t n ∧ m ∈ childIds (nodeAt t p) := by
  intro k
  induction k using Nat.strong_induction_on with
  | _ k ih =>
    intro n hk hn m hm hmn
    rw [descList_children t hedges n] at hm
    rcases List.mem_cons.mp hm with rfl | hm
    · exact absurd rfl hmn
    · rw [List.mem_flatten] at hm
      obtain ⟨l, hl, hml⟩ := hm
      rw [List.mem_map] at hl
      obtain ⟨e, he, rfl⟩ := hl
      have hce := hedges n e he
      by_cases hme : m = e.2
      · refine ⟨n, mem_descList_self t n, ?_⟩
        rw [hme]
        exact List.mem_map.mpr ⟨e, he, rfl⟩
      · obtain ⟨p, hp, hpc⟩ := ih (t.nodes.length - e.2) (by omega) e.2 rfl hce.2 m hml hme
        refine ⟨p, ?_, hpc⟩
        exact desc_child_block t hedges n e.2 (List.mem_map.mpr ⟨e, he, rfl⟩) p hp

theorem mem_childIds_lt {P : Type} (t : HashSetPrefixTree P)
    (hedges : ∀ i, ∀ e ∈ (nodeAt t i).children, i < e.2 ∧ e.2 < t.nodes.length)
    (p j : Nat) (hj : j ∈ childIds (nodeAt t p)) : p < j ∧ j < t.nodes.length := by
  obtain ⟨e, he, hej⟩ := List.mem_map.mp hj
  have := hedges p e he
  omega

theorem desc_comparable {P : Type} (t : HashSetPrefixTree P) (hwf : TreeWF t) :
    ∀ (m n1 n2 : Nat), n1 < t.nodes.length → n2 < t.nodes.length →
      m ∈ descList t n1 → m ∈ descList t n2 →
      n1 ∈ descList t n2 ∨ n2 ∈ descList t n1 := by
  intro m
  induction m using Nat.strong_induction_on with
  | _ m ih =>
    intro n1 n2 h1 h2 hm1 hm2
    by_cases hmn1 : m = n1
    · subst hmn1
      exact Or.inl hm2
    · by_cases hmn2 : m = n2
      · subst hmn2
        exact Or.inr hm1
      · obtain ⟨p1, hp1, hpc1⟩ := desc_parent t hwf.edges (t.nodes.length - n1) n1 rfl h1
          m hm1 hmn1
        obtain ⟨p2, hp2, hpc2⟩ := desc_parent t hwf.edges (t.nodes.length - n2) n2 rfl h2
          m hm2 hmn2
        have hb1 := desc_bounds t (t.nodes.length - n1) n1 rfl h1 p1 hp1
        have hb2 := desc_bounds t (t.nodes.length - n2) n2 rfl h2 p2 hp2
        have hpeq : p1 = p2 := hwf.parent_unique p1 p2 m hb1.2 hb2.2 hpc1 hpc2
        subst hpeq
        have hlt := mem_childIds_lt t hwf.edges p1 m hpc1
        exact ih p1 hlt.1 n1 n2 h1 h2 hp1 hp2

theorem desc_disjoint {P : Type} (t : HashSetPrefixTree P) (hwf : TreeWF t)
    (n c1 c2 : Nat) (hn : n < t.nodes.length)
    (hc1 : c1 ∈ childIds (nodeAt t n)) (hc2 : c2 ∈ childIds (nodeAt t n))
    (hne : c1 ≠ c2) : List.Disjoint (descList t c1) (descList t c2) := by
  intro m hm1 hm2
  have hl1 := mem_childIds_lt t hwf.edges n c1 hc1
  have hl2 := mem_childIds_lt t hwf.edges n c2 hc2
  have hcomp := desc_comparable t hwf m c1 c2 hl1.2 hl2.2 hm1 hm2
  rcases hcomp with hc | hc
  · obtain ⟨p, hp, hpc⟩ := desc_parent t hwf.edges (t.nodes.length - c2) c2 rfl hl2.2
      c1 hc hne
    have hbp := desc_bounds t (t.nodes.length - c2) c2 rfl hl2.2 p hp
    have hpeq : p = n := hwf.parent_unique p n c1 hbp.2 hn hpc hc1
    omega
  · obtain ⟨p, hp, hpc⟩ := desc_parent t hwf.edges (t.nodes.length - c1) c1 rfl hl1.2
      c2 hc (fun hh => hne hh.symm)
    have hbp := desc_bounds t (t.nodes.length - c1) c1 rfl hl1.2 p hp
    have hpeq : p = n := hwf.parent_unique p n c2 hbp.2 hn hpc hc2
    omega

theorem nodup_descList {P : Type} (t : HashSetPrefixTree P) (hwf : TreeWF t) :
    ∀ (k n : Nat), t.nodes.length - n = k → n < t.nodes.length →
      (descList t n).Nodup := by
  intro k
  induction k using Nat.strong_induction_on with
  | _ k ih =>
    intro n hk hn
    rw [descList_children t hwf.edges n]
    rw [List.nodup_cons]
    constructor
    · intro hmem
      rw [List.mem_flatten] at hmem
      obtain ⟨l, hl, hml⟩ := hmem
      rw [List.mem_map] at hl
      obtain ⟨e, he, rfl⟩ := hl
      have hce := hwf.edges n e he
      have := desc_bounds t (t.nodes.length - e.2) e.2 rfl hce.2 n hml
      omega
    · rw [List.nodup_flatten]
      constructor
      · intro l hl
        rw [List.mem_map] at hl
        obtain ⟨e, he, rfl⟩ := hl
        have hce := hwf.edges n e he
        exact ih (t.nodes.length - e.2) (by omega) e.2 rfl hce.2
      · rw [List.pairwise_map]
        have hpw : (nodeAt t n).children.Pairwise (fun e1 e2 => e1.2 ≠ e2.2) := by
          have h2 := hwf.child_nodup n
          unfold childIds List.Nodup at h2
          rw [List.pairwise_map] at h2
          exact h2
        refine List.Pairwise.imp_of_mem ?_ hpw
        intro e1 e2 he1 he2 hne
        exact desc_disjoint t hwf n e1.2 e2.2 hn (List.mem_map.mpr ⟨e1, he1, rfl⟩)
          (List.mem_map.mpr ⟨e2, he2, rfl⟩) hne

theorem desc_closed_child {P : Type} (t : HashSetPrefixTree P)
    (hedges : ∀ i, ∀ e ∈ (nodeAt t i).children, i < e.2 ∧ e.2 < t.nodes.length) :
    ∀ (k n0 : Nat), t.nodes.length - n0 = k → n0 < t.nodes.length →
      ∀ p j, p ∈ descList t n0 → j ∈ childIds (nodeAt t p) → j ∈ descList t n0 := by
  intro k
  induction k using Nat.strong_induction_on with
  | _ k ih =>
    intro n0 hk hn0 p j hp hj
    rw [descList_children t hedges n0] at hp ⊢
    rcases List.mem_cons.mp hp with rfl | hp
    · refine List.mem_cons.mpr (Or.inr ?_)
      rw [List.mem_flatten]
      obtain ⟨e, he, hej⟩ := List.mem_map.mp hj
      exact ⟨descList t j, List.mem_map.mpr ⟨e, he, by rw [hej]⟩, mem_descList_self t j⟩
    · rw [List.mem_flatten] at hp
      obtain ⟨l, hl, hpl⟩ := hp
      rw [List.mem_map] at hl
      obtain ⟨e, he, rfl⟩ := hl
      have hce := hedges n0 e he
      have hrec := ih (t.nodes.length - e.2) (by omega) e.2 rfl hce.2 p j hpl hj
      refine List.mem_cons.mpr (Or.inr ?_)
      rw [List.mem_flatten]
      exact ⟨descList t e.2, List.mem_map.mpr ⟨e, he, rfl⟩, hrec⟩

theorem desc_complete {P : Type} (t : HashSetPrefixTree P) (hwf : TreeWF t) :
    ∀ j, j < t.nodes.length → j ∈ descList t 0 := by
  intro j
  induction j using Nat.strong_induction_on with
  | _ j ih =>
    intro hj
    by_cases hj0 : j = 0
    · subst hj0
      exact mem_descList_self t 0
    · obtain ⟨i, hi, hmem⟩ := hwf.reach j (by omega) hj
      have hlt := mem_childIds_lt t hwf.edges i j hmem
      have hidesc := ih i hlt.1 hi
      exact desc_closed_child t hwf.edges (t.nodes.length - 0) 0 rfl hwf.nonempty i j
        hidesc hmem

theorem desc_length_le {P : Type} (t : HashSetPrefixTree P) (hwf : TreeWF t) :
    (descList t 0).length ≤ t.nodes.length := by
  classical
  have hnd := nodup_descList t hwf (t.nodes.length - 0) 0 rfl hwf.nonempty
  have h1 := List.toFinset_card_of_nodup hnd
  have h2 : (descList t 0).toFinset ⊆ Finset.range t.nodes.length := by
    intro m hm
    rw [List.mem_toFinset] at hm
    rw [Finset.mem_range]
    exact (desc_bounds t (t.nodes.length - 0) 0 rfl hwf.nonempty m hm).2
  have h3 := Finset.card_le_card h2
  rw [h1, Finset.card_range] at h3
  exact h3

/-- The posting contributed by a node: its value slot's set, or empty. -/
def valueOf {P : Type} [DecidableEq P] (t : HashSetPrefixTree P) (n : Nat) : Finset P :=
  match (nodeAt t n).value with
  | some vid => t.values.getD vid ∅
  | none => ∅

/-- Union of the postings contributed by a list of nodes. -/
def unionOver {P : Type} [DecidableEq P] (t : HashSetPrefixTree P) (l : List Nat) :
    Finset P :=
  l.foldr (fun n s => valueOf t n ∪ s) ∅

/-- Union of every posting in the posting arena. -/
def allValues {P : Type} [DecidableEq P] (t : HashSetPrefixTree P) : Finset P :=
  t.values.foldr (fun v s => v ∪ s) ∅

theorem mem_unionOver {P : Type} [DecidableEq P] (t : HashSetPrefixTree P)
    (l : List Nat) (p : P) : p ∈ unionOver t l ↔ ∃ n ∈ l, p ∈ valueOf t n := by
  induction l with
  | nil => simp [unionOver]
  | cons n rest ih =>
    simp only [unionOver, List.foldr_cons, Finset.mem_union] at *
    rw [ih]
    simp

theorem mem_allValues {P : Type} [DecidableEq P] (t : HashSetPrefixTree P) (p : P) :
    p ∈ allValues t ↔ ∃ vid, vid < t.values.length ∧ p ∈ t.values.getD vid ∅ := by
  unfold allValues
  have aux : ∀ (l : List (Finset P)),
      (p ∈ l.foldr (fun v s => v ∪ s) ∅ ↔ ∃ vid, vid < l.length ∧ p ∈ l.getD vid ∅) := by
    intro l
    induction l with
    | nil => simp
    | cons v rest ih =>
      simp only [List.foldr_cons, Finset.mem_union, ih]
      constructor
      · rintro (hv | ⟨vid, hlt, hmem⟩)
        · exact ⟨0, by simp, by simpa using hv⟩
        · exact ⟨vid + 1, by simpa using hlt, by simpa using hmem⟩
      · rintro ⟨vid, hlt, hmem⟩
        cases vid with
        | zero => exact Or.inl (by simpa using hmem)
        | succ k => exact Or.inr ⟨k, by simpa using hlt, by simpa using hmem⟩
  exact aux t.values

/-- The breadth-first loop of get_prefix computes the union of the postings
over the descendant lists of the queue, provided the queue's descendant
lists are disjoint, in bounds, and the fuel covers their total length. -/
theorem get_prefix_go_spec {P : Type} [DecidableEq P] (t : HashSetPrefixTree P)
    (hedges : ∀ i, ∀ e ∈ (nodeAt t i).children, i < e.2 ∧ e.2 < t.nodes.length) :
    ∀ (fuel : Nat) (queue : List Nat) (acc : Finset P),
      (∀ n ∈ queue, n < t.nodes.length) →
      ((queue.map (descList t)).flatten).Nodup →
      ((queue.map (descList t)).flatten).length ≤ fuel →
      t.get_prefix_go fuel queue acc = acc ∪ unionOver t ((queue.map (descList t)).flatten) := by
  intro fuel
  induction fuel with
  | zero =>
    intro queue acc hq hnd hlen
    cases queue with
    | nil => simp [HashSetPrefixTree.get_prefix_go, unionOver]
    | cons n rest =>
      exfalso
      have h1 : n ∈ ((n :: rest).map (descList t)).flatten := by
        rw [List.mem_flatten]
        exact ⟨descList t n, by simp, mem_descList_self t n⟩
      have h2 : 0 < ((n :: rest).map (descList t)).flatten.length := List.length_pos.mpr
        (fun hh => by rw [hh] at h1; exact List.not_mem_nil n h1)
      omega
  | succ fuel ih =>
    intro queue acc hq hnd hlen
    cases queue with
    | nil => simp [HashSetPrefixTree.get_prefix_go, unionOver]
    | cons n rest =>
      have hn : n < t.nodes.length := hq n (List.mem_cons_self _ _)
      have hdesc := descList_children t hedges n
      have hstep : t.get_prefix_go (fuel + 1) (n :: rest) acc =
          t.get_prefix_go fuel (rest ++ (nodeAt t n).children.map (fun x => x.2))
            (acc ∪ valueOf t n) := by
        simp only [HashSetPrefixTree.get_prefix_go, TreeNode.get]
        have hacc2 : (match (t.nodes.getD n (TreeNode.new none)).value with
            | some value_id => acc ∪ t.values.getD value_id ∅
            | none => acc) = acc ∪ valueOf t n := by
          unfold valueOf nodeAt
          cases hslot : (t.nodes.getD n (TreeNode.new none)).value with
          | some vid => rfl
          | none => simp
        rw [hacc2]
        rfl
      have hold : (((n :: rest).map (descList t)).flatten : List Nat) =
          n :: (((nodeAt t n).children.map (fun e => descList t e.2)).flatten ++
            (rest.map (descList t)).flatten) := by
        simp only [List.map_cons, List.flatten_cons]
        rw [hdesc]
        simp [List.cons_append]
      have hnew : (((rest ++ (nodeAt t n).children.map (fun x => x.2)).map
            (descList t)).flatten : List Nat) =
          (rest.map (descList t)).flatten ++
            ((nodeAt t n).children.map (fun e => descList t e.2)).flatten := by
        rw [List.map_append, List.flatten_append, List.map_map]
        rfl
      have hqnew : ∀ m ∈ rest ++ (nodeAt t n).children.map (fun x => x.2),
          m < t.nodes.length := by
        intro m hm
        rcases List.mem_append.mp hm with hm | hm
        · exact hq m (List.mem_cons_of_mem _ hm)
        · obtain ⟨e, he, rfl⟩ := List.mem_map.mp hm
          exact (hedges n e he).2
      have hndtail : (((nodeAt t n).children.map (fun e => descList t e.2)).flatten ++
          (rest.map (descList t)).flatten).Nodup := by
        rw [hold] at hnd
        exact (List.nodup_cons.mp hnd).2
      have hndnew : (((rest ++ (nodeAt t n).children.map (fun x => x.2)).map
          (descList t)).flatten).Nodup := by
        rw [hnew]
        exact List.nodup_append_comm.mp hndtail
      have hlennew : (((rest ++ (nodeAt t n).children.map (fun x => x.2)).map
          (descList t)).flatten).length ≤ fuel := by
        rw [hnew]
        rw [hold] at hlen
        simp only [List.length_cons, List.length_append] at hlen ⊢
        omega
      rw [hstep, ih _ _ hqnew hndnew hlennew]
      ext p
      rw [hold, hnew]
      simp only [Finset.mem_union, mem_unionOver, List.mem_append, List.mem_cons]
      constructor
      · rintro ((hp | hp) | ⟨m, (hm | hm), hv⟩)
        · exact Or.inl hp
        · exact Or.inr ⟨n, Or.inl rfl, hp⟩
        · exact Or.inr ⟨m, Or.inr (Or.inr hm), hv⟩
        · exact Or.inr ⟨m, Or.inr (Or.inl hm), hv⟩
      · rintro (hp | ⟨m, (rfl | (hm | hm)), hv⟩)
        · exact Or.inl (Or.inl hp)
        · exact Or.inl (Or.inr hv)
        · exact Or.inr ⟨m, Or.inr hm, hv⟩
        · exact Or.inr ⟨m, Or.inl hm, hv⟩

/-- On a well-formed tree, get_prefix with the empty prefix returns the
union of every posting in the tree. -/
theorem get_prefix_empty_allValues {P : Type} [DecidableEq P] (t : HashSetPrefixTree P)
    (hwf : TreeWF t) : t.get_prefix_set "" = some (allValues t) := by
  unfold HashSetPrefixTree.get_prefix_set HashSetPrefixTree.find_node
  have hne : t.nodes.isEmpty = false := by
    cases hn : t.nodes with
    | nil =>
      exfalso
      have := hwf.nonempty
      rw [hn] at this
      simp at this
    | cons a l => rfl
  rw [hne]
  have hdata : ("" : String).data = [] := rfl
  rw [hdata]
  simp only [HashSetPrefixTree.find_node_go, Bool.false_eq_true, if_false]
  congr 1
  have hbfs := get_prefix_go_spec t hwf.edges t.nodes.length [0] ∅
    (by intro m hm; simp at hm; subst hm; exact hwf.nonempty)
    (by
      simp only [List.map_cons, List.map_nil, List.flatten_cons, List.flatten_nil,
        List.append_nil]
      exact nodup_descList t hwf (t.nodes.length - 0) 0 rfl hwf.nonempty)
    (by
      simp only [List.map_cons, List.map_nil, List.flatten_cons, List.flatten_nil,
        List.append_nil]
      exact desc_length_le t hwf)
  rw [hbfs]
  ext p
  simp only [Finset.mem_union, Finset.not_mem_empty, false_or, mem_unionOver,
    List.map_cons, List.map_nil, List.flatten_cons, List.flatten_nil, List.append_nil,
    mem_allValues]
  constructor
  · rintro ⟨m, hm, hv⟩
    unfold valueOf at hv
    cases hslot : (nodeAt t m).value with
    | some vid =>
      rw [hslot] at hv
      exact ⟨vid, hwf.slots m vid hslot, hv⟩
    | none =>
      rw [hslot] at hv
      simp at hv
  · rintro ⟨vid, hlt, hv⟩
    obtain ⟨i, hi, hslot⟩ := hwf.slots_onto vid hlt
    refine ⟨i, desc_complete t hwf i hi, ?_⟩
    unfold valueOf
    rw [hslot]
    exact hv

theorem nodeAt_ge {P : Type} (t : HashSetPrefixTree P) (i : Nat)
    (h : t.nodes.length ≤ i) : nodeAt t i = TreeNode.new none :=
  getD_ge t.nodes i (TreeNode.new none) h

theorem mem_childIds_lt_len {P : Type} (t : HashSetPrefixTree P) (i j : Nat)
    (h : j ∈ childIds (nodeAt t i)) : i < t.nodes.length := by
  by_contra hh
  rw [nodeAt_ge t i (by omega)] at h
  simp [childIds, TreeNode.new] at h

/-- The tree after one node-creating step of the insert walk: push a fresh
node and add an edge to it from node_id. -/
def stepTree {P : Type} (t : HashSetPrefixTree P) (node_id : Nat) (c : Char) :
    HashSetPrefixTree P :=
  ⟨(t.nodes ++ [TreeNode.new none]).set node_id
      (((t.nodes ++ [TreeNode.new none]).getD node_id (TreeNode.new none)).insert_child c
        ((t.nodes ++ [TreeNode.new none]).length - 1)),
    t.values⟩

theorem stepTree_len {P : Type} (t : HashSetPrefixTree P) (node_id : Nat) (c : Char) :
    (stepTree t node_id c).nodes.length = t.nodes.length + 1 := by
  unfold stepTree
  simp

theorem stepTree_values {P : Type} (t : HashSetPrefixTree P) (node_id : Nat) (c : Char) :
    (stepTree t node_id c).values = t.values := rfl

theorem stepTree_nodeAt_self {P : Type} (t : HashSetPrefixTree P) (node_id : Nat)
    (c : Char) (hn : node_id < t.nodes.length) :
    nodeAt (stepTree t node_id c) node_id =
      (nodeAt t node_id).insert_child c t.nodes.length := by
  unfold stepTree nodeAt
  simp only
  rw [getD_set_self _ _ _ _ (by simp; omega)]
  rw [getD_append_lt _ _ _ _ hn]
  congr 1
  simp

theorem stepTree_nodeAt_ne {P : Type} (t : HashSetPrefixTree P) (node_id : Nat)
    (c : Char) (j : Nat) (hne : j ≠ node_id) (hj : j < t.nodes.length) :
    nodeAt (stepTree t node_id c) j = nodeAt t j := by
  unfold stepTree nodeAt
  simp only
  rw [getD_set_ne _ _ _ _ _ (fun hh => hne hh.symm)]
  rw [getD_append_lt _ _ _ _ hj]

theorem stepTree_nodeAt_new {P : Type} (t : HashSetPrefixTree P) (node_id : Nat)
    (c : Char) (hn : node_id < t.nodes.length) :
    nodeAt (stepTree t node_id c) t.nodes.length = TreeNode.new none := by
  unfold stepTree nodeAt
  simp only
  rw [getD_set_ne _ _ _ _ _ (by omega)]
  rw [getD_append_self]

theorem stepTree_nodeAt_gt {P : Type} (t : HashSetPrefixTree P) (node_id : Nat)
    (c : Char) (j : Nat) (hj : t.nodes.length + 1 ≤ j) :
    nodeAt (stepTree t node_id c) j = TreeNode.new none := by
  apply nodeAt_ge
  rw [stepTree_len]
  omega

/-- Membership in the child lists of the stepped tree. -/
theorem stepTree_childIds_mem {P : Type} (t : HashSetPrefixTree P) (hwf : TreeWF t)
    (node_id : Nat) (c : Char) (hn : node_id < t.nodes.length) (i j : Nat) :
    j ∈ childIds (nodeAt (stepTree t node_id c) i) ↔
      j ∈ childIds (nodeAt t i) ∨ (i = node_id ∧ j = t.nodes.length) := by
  by_cases hi : i = node_id
  · subst hi
    rw [stepTree_nodeAt_self t i c hn]
    have hperm := insert_child_childIds (nodeAt t i) c t.nodes.length
    rw [hperm.mem_iff]
    simp
  · by_cases hj2 : i < t.nodes.length
    · rw [stepTree_nodeAt_ne t node_id c i hi hj2]
      simp [hi]
    · by_cases hieq : i = t.nodes.length
      · subst hieq
        rw [stepTree_nodeAt_new t node_id c hn, nodeAt_ge t _ (Nat.le_refl _)]
        simp [hi]
      · rw [stepTree_nodeAt_gt t node_id c i (by omega), nodeAt_ge t i (by omega)]
        simp [hi]

/-- One node-creating step preserves well-formedness. -/
theorem stepTree_wf {P : Type} (t : HashSetPrefixTree P) (hwf : TreeWF t)
    (node_id : Nat) (c : Char) (hn : node_id < t.nodes.length) :
    TreeWF (stepTree t node_id c) := by
  have hL := stepTree_len t node_id c
  constructor
  · rw [hL]; omega
  · -- edges
    intro i e he
    rw [hL]
    by_cases hi : i = node_id
    · subst hi
      rw [stepTree_nodeAt_self t i c hn] at he
      rcases (insert_child_mem _ c t.nodes.length e).mp he with he | he
      · have := hwf.edges i e he
        omega
      · subst he
        simp only
        omega
    · by_cases hj2 : i < t.nodes.length
      · rw [stepTree_nodeAt_ne t node_id c i hi hj2] at he
        have := hwf.edges i e he
        omega
      · by_cases hieq : i = t.nodes.length
        · subst hieq
          rw [stepTree_nodeAt_new t node_id c hn] at he
          simp [TreeNode.new] at he
        · rw [stepTree_nodeAt_gt t node_id c i (by omega)] at he
          simp [TreeNode.new] at he
  · -- child_nodup
    intro i
    by_cases hi : i = node_id
    · subst hi
      rw [stepTree_nodeAt_self t i c hn]
      have hperm := insert_child_childIds (nodeAt t i) c t.nodes.length
      rw [hperm.nodup_iff]
      rw [List.nodup_append]
      refine ⟨hwf.child_nodup i, by simp, ?_⟩
      intro a ha hb
      simp only [List.mem_singleton] at hb
      have := mem_childIds_lt t hwf.edges i a ha
      omega
    · by_cases hj2 : i < t.nodes.length
      · rw [stepTree_nodeAt_ne t node_id c i hi hj2]
        exact hwf.child_nodup i
      · by_cases hieq : i = t.nodes.length
        · subst hieq
          rw [stepTree_nodeAt_new t node_id c hn]
          simp [childIds, TreeNode.new]
        · rw [stepTree_nodeAt_gt t node_id c i (by omega)]
          simp [childIds, TreeNode.new]
  · -- parent_unique
    intro i1 i2 j h1 h2 hm1 hm2
    rw [stepTree_childIds_mem t hwf node_id c hn] at hm1 hm2
    rcases hm1 with hm1 | ⟨rfl, rfl⟩
    · rcases hm2 with hm2 | ⟨rfl, hj⟩
      · exact hwf.parent_unique i1 i2 j (mem_childIds_lt_len t i1 j hm1)
          (mem_childIds_lt_len t i2 j hm2) hm1 hm2
      · subst hj
        have := mem_childIds_lt t hwf.edges i1 t.nodes.length hm1
        omega
    · rcases hm2 with hm2 | ⟨rfl, -⟩
      · have := mem_childIds_lt t hwf.edges i2 t.nodes.length hm2
        omega
      · rfl
  · -- reach
    intro j hj0 hjlt
    rw [hL] at hjlt
    by_cases hjL : j = t.nodes.length
    · subst hjL
      refine ⟨node_id, by rw [hL]; omega, ?_⟩
      rw [stepTree_childIds_mem t hwf node_id c hn]
      exact Or.inr ⟨rfl, rfl⟩
    · obtain ⟨i, hi, hmem⟩ := hwf.reach j hj0 (by omega)
      refine ⟨i, by rw [hL]; omega, ?_⟩
      rw [stepTree_childIds_mem t hwf node_id c hn]
      exact Or.inl hmem
  · -- slots
    intro i vid hv
    rw [stepTree_values]
    by_cases hi : i = node_id
    · subst hi
      rw [stepTree_nodeAt_self t i c hn, insert_child_value] at hv
      exact hwf.slots i vid hv
    · by_cases hj2 : i < t.nodes.length
      · rw [stepTree_nodeAt_ne t node_id c i hi hj2] at hv
        exact hwf.slots i vid hv
      · by_cases hieq : i = t.nodes.length
        · subst hieq
          rw [stepTree_nodeAt_new t node_id c hn] at hv
          exact Option.noConfusion hv
        · rw [stepTree_nodeAt_gt t node_id c i (by omega)] at hv
          exact Option.noConfusion hv
  · -- slots_onto
    intro vid hvid
    rw [stepTree_values] at hvid
    obtain ⟨i, hi, hv⟩ := hwf.slots_onto vid hvid
    by_cases hi2 : i = node_id
    · subst hi2
      refine ⟨i, by rw [hL]; omega, ?_⟩
      rw [stepTree_nodeAt_self t i c hn, insert_child_value]
      exact hv
    · refine ⟨i, by rw [hL]; omega, ?_⟩
      rw [stepTree_nodeAt_ne t node_id c i hi2 hi]
      exact hv

/-- The insert walk preserves well-formedness, returns an in-bounds node
id, and leaves the posting arena untouched. -/
theorem insertWalk_wf {P : Type} (cs : List Char) :
    ∀ (t : HashSetPrefixTree P) (node_id : Nat), TreeWF t → node_id < t.nodes.length →
      TreeWF (t.insertWalk node_id cs).1 ∧
      (t.insertWalk node_id cs).2 < (t.insertWalk node_id cs).1.nodes.length ∧
      (t.insertWalk node_id cs).1.values = t.values := by
  induction cs with
  | nil =>
    intro t node_id hwf hn
    exact ⟨hwf, hn, rfl⟩
  | cons c rest ih =>
    intro t node_id hwf hn
    cases hfind : (t.nodes.getD node_id (TreeNode.new none)).find_child c with
    | some id =>
      have hmem : (c, id) ∈ (nodeAt t node_id).children := find_child_mem _ c id hfind
      have hid := hwf.edges node_id (c, id) hmem
      have heq : t.insertWalk node_id (c :: rest) = t.insertWalk id rest := by
        simp only [HashSetPrefixTree.insertWalk, hfind]
      rw [heq]
      exact ih t id hwf hid.2
    | none =>
      have heq : t.insertWalk node_id (c :: rest) =
          (stepTree t node_id c).insertWalk t.nodes.length rest := by
        simp only [HashSetPrefixTree.insertWalk, hfind, HashSetPrefixTree.create_new_node,
          stepTree, List.length_append, List.length_cons, List.length_nil,
          Nat.add_sub_cancel]
      rw [heq]
      have hwf3 := stepTree_wf t hwf node_id c hn
      have hlen3 := stepTree_len t node_id c
      obtain ⟨h1, h2, h3⟩ := ih (stepTree t node_id c) t.nodes.length hwf3 (by omega)
      exact ⟨h1, h2, by rw [h3, stepTree_values]⟩

/-- Setting one node's value slot preserves well-formedness, provided the
new posting arena extends the old one, the slot index is in bounds, every
slot of the new arena is an old slot or the new index, and the touched node
could only have carried the new index already. -/
theorem setnode_wf {P : Type} (t1 : HashSetPrefixTree P) (hwf1 : TreeWF t1) (nid : Nat)
    (hn : nid < t1.nodes.length) (id : Nat) (vals : List (Finset P))
    (hlen : t1.values.length ≤ vals.length) (hid : id < vals.length)
    (honto : ∀ vid, vid < vals.length → vid < t1.values.length ∨ vid = id)
    (hnidval : ∀ vid, (nodeAt t1 nid).value = some vid → vid = id) :
    TreeWF (⟨t1.nodes.set nid ((t1.nodes.getD nid (TreeNode.new none)).set id), vals⟩ :
      HashSetPrefixTree P) := by
  have hchild : ∀ i,
      (nodeAt (⟨t1.nodes.set nid ((t1.nodes.getD nid (TreeNode.new none)).set id), vals⟩ :
        HashSetPrefixTree P) i).children = (nodeAt t1 i).children := by
    intro i
    by_cases hi : i = nid
    · subst hi
      unfold nodeAt
      simp only
      rw [getD_set_self _ _ _ _ hn]
      rfl
    · unfold nodeAt
      simp only
      rw [getD_set_ne _ _ _ _ _ (fun hh => hi hh.symm)]
  have hcids : ∀ i,
      childIds (nodeAt (⟨t1.nodes.set nid ((t1.nodes.getD nid (TreeNode.new none)).set id),
        vals⟩ : HashSetPrefixTree P) i) = childIds (nodeAt t1 i) := by
    intro i
    unfold childIds
    rw [hchild i]
  have hval : ∀ i,
      (nodeAt (⟨t1.nodes.set nid ((t1.nodes.getD nid (TreeNode.new none)).set id), vals⟩ :
        HashSetPrefixTree P) i).value =
        if i = nid then some id else (nodeAt t1 i).value := by
    intro i
    by_cases hi : i = nid
    · subst hi
      unfold nodeAt
      simp only [if_pos rfl]
      rw [getD_set_self _ _ _ _ hn]
      rfl
    · unfold nodeAt
      simp only [if_neg hi]
      rw [getD_set_ne _ _ _ _ _ (fun hh => hi hh.symm)]
  constructor
  · simp only [List.length_set]
    exact hwf1.nonempty
  · intro i e he
    rw [hchild i] at he
    have := hwf1.edges i e he
    simp only [List.length_set]
    exact this
  · intro i
    rw [hcids i]
    exact hwf1.child_nodup i
  · intro i1 i2 j h1 h2 hm1 hm2
    simp only [List.length_set] at h1 h2
    rw [hcids i1] at hm1
    rw [hcids i2] at hm2
    exact hwf1.parent_unique i1 i2 j h1 h2 hm1 hm2
  · intro j hj0 hjl
    simp only [List.length_set] at hjl
    obtain ⟨i, hi, hmem⟩ := hwf1.reach j hj0 hjl
    refine ⟨i, by simp only [List.length_set]; exact hi, ?_⟩
    rw [hcids i]
    exact hmem
  · intro i vid hv
    rw [hval i] at hv
    by_cases hi : i = nid
    · rw [if_pos hi] at hv
      simp only [Option.some.injEq] at hv
      subst hv
      exact hid
    · rw [if_neg hi] at hv
      have := hwf1.slots i vid hv
      show vid < vals.length
      omega
  · intro vid hvid
    simp only at hvid
    rcases honto vid hvid with hlt | rfl
    · obtain ⟨i, hi, hvi⟩ := hwf1.slots_onto vid hlt
      by_cases hinid : i = nid
      · subst hinid
        have := hnidval vid hvi
        subst this
        refine ⟨i, by simp only [List.length_set]; exact hi, ?_⟩
        rw [hval i, if_pos rfl]
      · refine ⟨i, by simp only [List.length_set]; exact hi, ?_⟩
        rw [hval i, if_neg hinid]
        exact hvi
    · refine ⟨nid, by simp only [List.length_set]; exact hn, ?_⟩
      rw [hval nid, if_pos rfl]

/-- Replacing one posting by a superset obtained by inserting an element
inserts that element into the fold of the arena. -/
theorem foldr_union_set {P : Type} [DecidableEq P] (l : List (Finset P)) :
    ∀ (id : Nat) (v : P), id < l.length →
      (l.set id (Insert.insert v (l.getD id ∅))).foldr (fun a s => a ∪ s) ∅ =
        Insert.insert v (l.foldr (fun a s => a ∪ s) ∅) := by
  induction l with
  | nil =>
    intro id v h
    simp at h
  | cons a rest ih =>
    intro id v h
    cases id with
    | zero =>
      simp only [List.set_cons_zero, List.foldr_cons, List.getD_cons_zero]
      rw [Finset.insert_union]
    | succ k =>
      simp only [List.set_cons_succ, List.foldr_cons, List.getD_cons_succ]
      rw [ih k v (by simpa using h)]
      rw [Finset.union_insert]

/-- Folding union over a list with an arbitrary seed equals the
empty-seeded fold united with the seed. -/
theorem foldr_union_init {P : Type} [DecidableEq P] (l : List (Finset P)) (init : Finset P) :
    l.foldr (fun a s => a ∪ s) init = l.foldr (fun a s => a ∪ s) ∅ ∪ init := by
  induction l with
  | nil => simp
  | cons a rest ih =>
    simp only [List.foldr_cons, ih]
    rw [Finset.union_assoc]

/-- Inserting a key-value pair preserves well-formedness and inserts the
value into the union of all postings. -/
theorem insert_wf_allValues {P : Type} [DecidableEq P] (t : HashSetPrefixTree P)
    (hwf : TreeWF t) (key : String) (v : P) :
    TreeWF (t.insert key v) ∧ allValues (t.insert key v) = Insert.insert v (allValues t) := by
  obtain ⟨hwf1, hn1, hv1⟩ := insertWalk_wf key.data t 0 hwf hwf.nonempty
  unfold HashSetPrefixTree.insert
  cases hwalk : t.insertWalk 0 key.data with
  | mk t1 nid =>
    rw [hwalk] at hwf1 hn1 hv1
    simp only at hwf1 hn1 hv1
    dsimp only
    cases hget : (t1.nodes.getD nid (TreeNode.new none)).get with
    | some id =>
      have hvalnid : (nodeAt t1 nid).value = some id := hget
      have hidlt : id < t1.values.length := hwf1.slots nid id hvalnid
      constructor
      · apply setnode_wf t1 hwf1 nid hn1 id
        · simp
        · simp only [List.length_set]
          exact hidlt
        · intro vid hvid
          simp only [List.length_set] at hvid
          exact Or.inl hvid
        · intro vid hvv
          rw [hvalnid] at hvv
          simp only [Option.some.injEq] at hvv
          exact hvv.symm
      · show (t1.values.set id (Insert.insert v (t1.values.getD id ∅))).foldr
          (fun a s => a ∪ s) ∅ = Insert.insert v (allValues t)
        rw [foldr_union_set t1.values id v hidlt]
        unfold allValues
        rw [hv1]
    | none =>
      have hvalnid : (nodeAt t1 nid).value = none := hget
      constructor
      · apply setnode_wf t1 hwf1 nid hn1 t1.values.length
        · simp
        · simp
        · intro vid hvid
          simp only [List.length_append, List.length_cons, List.length_nil] at hvid
          omega
        · intro vid hvv
          rw [hvalnid] at hvv
          exact Option.noConfusion hvv
      · show (t1.values ++ [{v}]).foldr (fun a s => a ∪ s) ∅ = Insert.insert v (allValues t)
        rw [List.foldr_append, foldr_union_init]
        unfold allValues
        rw [hv1]
        rw [Finset.union_comm]
        simp [Finset.insert_eq]

/-- A prefix tree built by inserting a list of key-value pairs into a
fresh tree. -/
def buildTree {P : Type} [DecidableEq P] (l : List (String × P)) : HashSetPrefixTree P :=
  l.foldl (fun t kv => t.insert kv.1 kv.2) (HashSetPrefixTree.new P)

theorem buildTree_go {P : Type} [DecidableEq P] (l : List (String × P)) :
    ∀ t : HashSetPrefixTree P, TreeWF t →
      TreeWF (l.foldl (fun t kv => t.insert kv.1 kv.2) t) ∧
      allValues (l.foldl (fun t kv => t.insert kv.1 kv.2) t) =
        allValues t ∪ (l.map (fun kv => kv.2)).toFinset := by
  induction l with
  | nil =>
    intro t hwf
    refine ⟨hwf, ?_⟩
    simp
  | cons kv rest ih =>
    intro t hwf
    simp only [List.foldl_cons, List.map_cons, List.toFinset_cons]
    obtain ⟨hw, ha⟩ := insert_wf_allValues t hwf kv.1 kv.2
    obtain ⟨hw2, ha2⟩ := ih (t.insert kv.1 kv.2) hw
    refine ⟨hw2, ?_⟩
    rw [ha2, ha, Finset.insert_union, Finset.union_insert]

/-- C8: for every prefix tree obtained by inserting any list of key-value
pairs into a fresh tree, get_prefix with the empty prefix returns the set
of every value that was ever inserted, under any key. -/
theorem get_prefix_empty_returns_all_inserted {P : Type} [DecidableEq P]
    (l : List (String × P)) :
    (buildTree l).get_prefix_set "" = some ((l.map (fun kv => kv.2)).toFinset) := by
  obtain ⟨hwf, hall⟩ := buildTree_go l (HashSetPrefixTree.new P) (treeWF_new P)
  rw [show buildTree l = l.foldl (fun t kv => t.insert kv.1 kv.2) (HashSetPrefixTree.new P)
    from rfl]
  rw [get_prefix_empty_allValues _ hwf, hall]
  rw [show allValues (HashSetPrefixTree.new P) = (∅ : Finset P) from rfl]
  rw [Finset.empty_union]

end ASE